import Mathlib

/-!
Shallow embedding of the flxdb core (`src/index.js`): a file-backed
key-value store with dot-path addressing, TTL expiry metadata, lightweight
JSON-schema validation and namespacing.

Modelling conventions:
* A JavaScript value is `JSValue`; plain objects are association lists of
  string keys (insertion order preserved, as in JS), arrays are lists,
  numbers are `JSNum` (integers plus the NaN/Infinity special values;
  fractional doubles are not needed by any claim).  `undefined` models
  JavaScript `undefined`, distinct from `null`.
* The store state is `DB` (the `data` document object, the runtime `meta`
  TTL/schema table, and the registered `schemas`).  `Date.now()` becomes an
  explicit `now : Int` argument of the operations that read the clock.
  Persistence (`_save`, `_load`, file paths) is an external collaborator in
  the design and is not modelled; `_save` is a no-op on the in-memory state.
* Operations that mutate (even reads: a read can reclaim an expired key)
  return the updated `DB` next to their result.  JavaScript exceptions
  become `Except JSError`; a raised error aborts an operation before any
  mutation, exactly where the source `throw`s.
* JS property access `obj[p]` / `p in obj` is modelled on own properties
  (prototype-inherited properties such as `toString` are not modelled);
  array index access models canonical numeric indices and `length`.
-/

namespace Flxdb

/-- JavaScript number: an integer-valued double, or NaN / ±Infinity. -/
inductive JSNum where
  | fin (val : Int)
  | nan
  | inf
  | ninf
deriving DecidableEq, Repr

/-- JavaScript value as stored in a flxdb document (plus `undefined`). -/
inductive JSValue where
  | undefined
  | null
  | bool (b : Bool)
  | num (n : JSNum)
  | str (s : String)
  | arr (elems : List JSValue)
  | obj (fields : List (String × JSValue))
deriving Repr

mutual

/-- Structural equality test for `JSValue` (the derive handler does not
support this nested inductive, so the instance is built by hand). -/
def beqVal : JSValue → JSValue → Bool
  | .undefined, .undefined => true
  | .null, .null => true
  | .bool a, .bool b => a == b
  | .num a, .num b => a == b
  | .str a, .str b => a == b
  | .arr xs, .arr ys => beqValList xs ys
  | .obj fs, .obj gs => beqValFields fs gs
  | _, _ => false
termination_by structural a => a

/-- Elementwise `beqVal` on lists. -/
def beqValList : List JSValue → List JSValue → Bool
  | [], [] => true
  | x :: xs, y :: ys => beqVal x y && beqValList xs ys
  | _, _ => false
termination_by structural a => a

/-- Elementwise `beqVal` on object fields. -/
def beqValFields : List (String × JSValue) → List (String × JSValue) → Bool
  | [], [] => true
  | (k1, v1) :: xs, (k2, v2) :: ys => k1 == k2 && beqVal v1 v2 && beqValFields xs ys
  | _, _ => false
termination_by structural a => a

end

mutual

theorem beqVal_iff : ∀ a b : JSValue, beqVal a b = true ↔ a = b
  | .undefined, .undefined => by simp [beqVal]
  | .null, .null => by simp [beqVal]
  | .bool a, .bool b => by simp [beqVal]
  | .num a, .num b => by simp [beqVal]
  | .str a, .str b => by simp [beqVal]
  | .arr xs, .arr ys => by
      simpa [beqVal] using beqValList_iff xs ys
  | .obj fs, .obj gs => by
      simpa [beqVal] using beqValFields_iff fs gs
  | .undefined, .null | .undefined, .bool _ | .undefined, .num _ | .undefined, .str _
  | .undefined, .arr _ | .undefined, .obj _
  | .null, .undefined | .null, .bool _ | .null, .num _ | .null, .str _
  | .null, .arr _ | .null, .obj _
  | .bool _, .undefined | .bool _, .null | .bool _, .num _ | .bool _, .str _
  | .bool _, .arr _ | .bool _, .obj _
  | .num _, .undefined | .num _, .null | .num _, .bool _ | .num _, .str _
  | .num _, .arr _ | .num _, .obj _
  | .str _, .undefined | .str _, .null | .str _, .bool _ | .str _, .num _
  | .str _, .arr _ | .str _, .obj _
  | .arr _, .undefined | .arr _, .null | .arr _, .bool _ | .arr _, .num _
  | .arr _, .str _ | .arr _, .obj _
  | .obj _, .undefined | .obj _, .null | .obj _, .bool _ | .obj _, .num _
  | .obj _, .str _ | .obj _, .arr _ => by simp [beqVal]

theorem beqValList_iff : ∀ xs ys : List JSValue, beqValList xs ys = true ↔ xs = ys
  | [], [] => by simp [beqValList]
  | x :: xs, y :: ys => by
      simp [beqValList, Bool.and_eq_true, beqVal_iff x y, beqValList_iff xs ys]
  | [], _ :: _ => by simp [beqValList]
  | _ :: _, [] => by simp [beqValList]

theorem beqValFields_iff :
    ∀ xs ys : List (String × JSValue), beqValFields xs ys = true ↔ xs = ys
  | [], [] => by simp [beqValFields]
  | (k1, v1) :: xs, (k2, v2) :: ys => by
      simp [beqValFields, Bool.and_eq_true, beqVal_iff v1 v2,
        beqValFields_iff xs ys, Prod.ext_iff, and_assoc]
  | [], _ :: _ => by simp [beqValFields]
  | _ :: _, [] => by simp [beqValFields]

end

instance : DecidableEq JSValue := fun a b =>
  decidable_of_iff (beqVal a b = true) (beqVal_iff a b)

/-- Fields of a JS plain object, in property order. -/
abbrev ObjFields := List (String × JSValue)

/-- First binding of `k` in an association list (JS own-property lookup). -/
def alistLookup {α : Type} : List (String × α) → String → Option α
  | [], _ => none
  | (k0, v0) :: rest, k => if k0 = k then some v0 else alistLookup rest k

/-- JS property assignment `o[k] = v`: replace in place, else append. -/
def alistSet {α : Type} : List (String × α) → String → α → List (String × α)
  | [], k, v => [(k, v)]
  | (k0, v0) :: rest, k, v =>
      if k0 = k then (k, v) :: rest else (k0, v0) :: alistSet rest k v

/-- JS `delete o[k]` (keys are unique in JS objects; we drop every binding). -/
def alistDelete {α : Type} (l : List (String × α)) (k : String) : List (String × α) :=
  l.filter (fun e => e.1 ≠ k)

/-- JS `k in o` restricted to own properties. -/
def objHas (fs : ObjFields) (k : String) : Bool :=
  (alistLookup fs k).isSome

/-- JS `o[k]` on a plain object: `undefined` when absent. -/
def objGetD (fs : ObjFields) (k : String) : JSValue :=
  (alistLookup fs k).getD .undefined

/-- Accumulator pass of `key.split "."` over the character list. -/
def splitAux : List Char → List Char → List String
  | [], cur => [String.mk cur.reverse]
  | c :: rest, cur =>
      if c = '.' then String.mk cur.reverse :: splitAux rest []
      else splitAux rest (c :: cur)

/-- JS `key.split(".")` (single-character separator). -/
def jsSplitDot (s : String) : List String :=
  splitAux s.data []

/-- `FlxDBCore._splitKey` on an actual string:
`key.split(".").filter(Boolean)` — empty segments are discarded.
(The `typeof key !== "string"` TypeError of `_splitKey` is unreachable:
every public caller coerces the key with `String(key)` first.) -/
def splitKey (k : String) : List String :=
  (jsSplitDot k).filter (fun s => s ≠ "")

/-- JS `typeof` on our value model. -/
def jsTypeof : JSValue → String
  | .undefined => "undefined"
  | .null => "object"
  | .bool _ => "boolean"
  | .num _ => "number"
  | .str _ => "string"
  | .arr _ => "object"
  | .obj _ => "object"

/-- JS truthiness (`Boolean(v)`). -/
def jsTruthy : JSValue → Bool
  | .undefined => false
  | .null => false
  | .bool b => b
  | .num (.fin i) => i ≠ 0
  | .num .nan => false
  | .num .inf => true
  | .num .ninf => true
  | .str s => s ≠ ""
  | .arr _ => true
  | .obj _ => true

/-- JS `String(n)` for a number. -/
def numToString : JSNum → String
  | .fin i => toString i
  | .nan => "NaN"
  | .inf => "Infinity"
  | .ninf => "-Infinity"

mutual

/-- JS `String(v)` coercion (arrays join their elements with `,`,
`null`/`undefined` elements becoming empty strings, as in
`Array.prototype.toString`). -/
def jsToString : JSValue → String
  | .undefined => "undefined"
  | .null => "null"
  | .bool true => "true"
  | .bool false => "false"
  | .num n => numToString n
  | .str s => s
  | .arr xs => arrJoin xs
  | .obj _ => "[object Object]"
termination_by structural a => a

/-- `Array.prototype.join(",")` over the element coercions
(`null`/`undefined` elements print as empty strings). -/
def arrJoin : List JSValue → String
  | [] => ""
  | [.undefined] => ""
  | [.null] => ""
  | [x] => jsToString x
  | .undefined :: y :: rest => "," ++ arrJoin (y :: rest)
  | .null :: y :: rest => "," ++ arrJoin (y :: rest)
  | x :: y :: rest => jsToString x ++ "," ++ arrJoin (y :: rest)
termination_by structural a => a

end

/-- `String(k)` on an actual string is the identity. -/
theorem jsToString_str (s : String) : jsToString (.str s) = s := rfl

/-- JS whitespace test for `String.prototype.trim`. -/
def isJsSpace (c : Char) : Bool :=
  c = ' ' ∨ c = '\t' ∨ c = '\n' ∨ c = '\r' ∨ c = '\x0b' ∨ c = '\x0c'

/-- JS `s.trim()`. -/
def jsTrim (s : String) : String :=
  String.mk ((s.data.dropWhile isJsSpace).reverse.dropWhile isJsSpace).reverse

/-- Canonical array index: `some i` when `p` is the decimal numeral of
`i < n` (JS `"0" in [x]` is true, `"01" in [x]` is false). -/
def parseArrayIndex (p : String) (n : Nat) : Option Nat :=
  match p.toNat? with
  | some i => if toString i = p ∧ i < n then some i else none
  | none => none

/-- JS `p in v` for array receivers, own properties only. -/
def arrHas (xs : List JSValue) (p : String) : Bool :=
  p = "length" ∨ (parseArrayIndex p xs.length).isSome

/-- JS `v[p]` for array receivers. -/
def arrGetD (xs : List JSValue) (p : String) : JSValue :=
  if p = "length" then .num (.fin xs.length)
  else
    match parseArrayIndex p xs.length with
    | some i => xs.getD i .undefined
    | none => .undefined

/-- Own-property read `v[p]` (callers guard the null/undefined receivers,
which throw in JS). -/
def jsGetProp : JSValue → String → JSValue
  | .obj fs, p => objGetD fs p
  | .arr xs, p => arrGetD xs p
  | _, _ => .undefined

/-- `Object.prototype.hasOwnProperty.call(v, p)` for the object-typed
receivers that reach it in `_validateWithSchema`. -/
def jsHasOwn : JSValue → String → Bool
  | .obj fs, p => objHas fs p
  | .arr xs, p => arrHas xs p
  | _, _ => false

/-- `Object.entries(v)` for the object-typed values the source iterates. -/
def entriesOf : JSValue → List (String × JSValue)
  | .obj fs => fs
  | .arr xs => xs.enum.map (fun p => (toString p.1, p.2))
  | _ => []

/-- The walk of `FlxDBCore.get`/`has` over already-split path parts:
```
for (const p of parts) {
  if (obj == null || typeof obj !== "object") return default;
  if (!(p in obj)) return default;
  obj = obj[p];
}
```
`none` is the early `return default` / `return false`. -/
def walkPath : JSValue → List String → Option JSValue
  | v, [] => some v
  | .undefined, _ :: _ => none
  | .null, _ :: _ => none
  | .obj fs, p :: rest => if objHas fs p then walkPath (objGetD fs p) rest else none
  | .arr xs, p :: rest => if arrHas xs p then walkPath (arrGetD xs p) rest else none
  | .bool _, _ :: _ => none
  | .num _, _ :: _ => none
  | .str _, _ :: _ => none

/-- `_getRef(key, true)` followed by `parent[last] = v`, as one pure
update of the root object.  An intermediate slot that is absent, `null`,
an array or a scalar is overwritten with a fresh `{}`.  When the part list
is empty (`_splitKey` dropped everything), `parts[parts.length - 1]` is
`undefined` and the assignment `parent[undefined] = v` writes the root
property named `"undefined"`, exactly as in JS. -/
def writeAt : ObjFields → List String → JSValue → ObjFields
  | fs, [], v => alistSet fs "undefined" v
  | fs, [p], v => alistSet fs p v
  | fs, p :: q :: rest, v =>
      let child : ObjFields :=
        match objGetD fs p with
        | .obj cfs => cfs
        | _ => []
      alistSet fs p (.obj (writeAt child (q :: rest) v))

/-- `_getRef(key, false)` followed by checking `parent && last in parent`
and `delete parent[last]`: `some` is the updated root when the deletion
fires, `none` the `return false` path.  As above, an empty part list
addresses the root property `"undefined"`. -/
def deleteAt : ObjFields → List String → Option ObjFields
  | fs, [] => if objHas fs "undefined" then some (alistDelete fs "undefined") else none
  | fs, [p] => if objHas fs p then some (alistDelete fs p) else none
  | fs, p :: q :: rest =>
      match alistLookup fs p with
      | some (.obj cfs) =>
          (deleteAt cfs (q :: rest)).map (fun cfs2 => alistSet fs p (.obj cfs2))
      | _ => none

mutual

/-- `FlxDBCore._flatten`: depth-first flattening of the document into
`(fullKey, value)` pairs; only non-null, non-array objects are descended
into, everything else is a leaf. -/
def flattenFields : ObjFields → String → List (String × JSValue)
  | [], _ => []
  | (k, v) :: rest, pre =>
      let fullKey := if pre = "" then k else pre ++ "." ++ k
      flattenEntry fullKey v ++ flattenFields rest pre
termination_by structural fs => fs

/-- One `_flatten` entry: descend into a plain object, emit a leaf pair
otherwise. -/
def flattenEntry (fullKey : String) : JSValue → List (String × JSValue)
  | .obj cfs => flattenFields cfs fullKey
  | w => [(fullKey, w)]
termination_by structural v => v

end

mutual

/-- `FlxDBCore._deepMerge` with an object source, iterating the source
fields in order. -/
def mergeFields : ObjFields → List (String × JSValue) → ObjFields
  | t, [] => t
  | t, (k, v) :: rest => mergeFields (mergeOne t k v) rest
termination_by structural _u s => s

/-- One `_deepMerge` step: a non-null, non-array object source value is
merged recursively (resetting the target slot to `{}` when it is not such
an object itself); any other source value is assigned wholesale. -/
def mergeOne (t : ObjFields) (k : String) : JSValue → ObjFields
  | .obj vfs =>
      let cur : ObjFields :=
        match objGetD t k with
        | .obj cfs => cfs
        | _ => []
      alistSet t k (.obj (mergeFields cur vfs))
  | w => alistSet t k w
termination_by structural v => v

end

/-- `_deepMerge(this.data, src)` at the root: a falsy or non-object source
returns the target unchanged; an array source is enumerated by its index
keys (`Object.keys` of an array). -/
def deepMergeRoot (t : ObjFields) (src : JSValue) : ObjFields :=
  match src with
  | .obj sfs => mergeFields t sfs
  | .arr xs => mergeFields t (entriesOf (.arr xs))
  | _ => t

/-- Errors raised by the core.  The source throws `TypeError` for bad
arguments, plain `Error` objects for a missing schema and for validation
failures; a runtime `TypeError` also escapes from
`Object.prototype.hasOwnProperty.call(null, …)` / a property read on
`null` inside `_validateWithSchema`. -/
inductive JSError where
  | typeError (msg : String)
  | schemaNotFound (name : String)
  | validation (msg : String)
deriving DecidableEq, Repr

instance {e a : Type} [DecidableEq e] [DecidableEq a] : DecidableEq (Except e a)
  | .ok x, .ok y => decidable_of_iff (x = y) (by simp)
  | .error x, .error y => decidable_of_iff (x = y) (by simp)
  | .ok _, .error _ => isFalse (by simp)
  | .error _, .ok _ => isFalse (by simp)

/-- One entry of `FlxDBCore.meta`:
`{ expiresAt: number|null, schema: string|null }`. -/
structure MetaEntry where
  expiresAt : Option Int
  schema : Option String
deriving DecidableEq, Repr

/-- In-memory state of a `FlxDBCore` instance: the `data` document, the
runtime TTL/schema `meta` table and the registered `schemas`.  The file
path / autosave configuration only affects persistence, which is not
modelled. -/
structure DB where
  data : ObjFields
  meta : List (String × MetaEntry)
  schemas : List (String × JSValue)
deriving DecidableEq, Repr

/-- A freshly constructed store with no prior file: `this.data = {}`. -/
def DB.empty : DB := ⟨[], [], []⟩

/-- `FlxDBCore._checkExpiredSingle(key)`: with `meta = this.meta[key]`,
`!meta || !meta.expiresAt` (note `0` is falsy) or `expiresAt > Date.now()`
returns `false`; otherwise the document value at the key is deleted when
present, the meta entry is removed, and `true` is returned. -/
def checkExpiredSingle (db : DB) (now : Int) (k : String) : Bool × DB :=
  match alistLookup db.meta k with
  | none => (false, db)
  | some m =>
      match m.expiresAt with
      | none => (false, db)
      | some t =>
          if t = 0 then (false, db)
          else if now < t then (false, db)
          else
            let data2 :=
              match deleteAt db.data (splitKey k) with
              | some d => d
              | none => db.data
            (true, { db with data := data2, meta := alistDelete db.meta k })

/-- Body of `FlxDBCore._cleanupExpired`: iterate the snapshot of
`Object.entries(this.meta)`, reclaiming every entry with a truthy
`expiresAt ≤ now`. -/
def cleanupInner : List (String × MetaEntry) → Int → DB → DB
  | [], _, acc => acc
  | (k, m) :: rest, now, acc =>
      let acc2 :=
        match m.expiresAt with
        | some t =>
            if t ≠ 0 ∧ t ≤ now then
              { acc with
                data :=
                  match deleteAt acc.data (splitKey k) with
                  | some d => d
                  | none => acc.data,
                meta := alistDelete acc.meta k }
            else acc
        | none => acc
      cleanupInner rest now acc2

/-- `FlxDBCore._cleanupExpired()` (the `_save` call is a persistence
no-op here). -/
def cleanupExpired (db : DB) (now : Int) : DB :=
  cleanupInner db.meta now db

/-- `schema.type && typeof value !== schema.type` — a truthy non-string
`schema.type` never strictly equals the `typeof` string. -/
def styMismatch (sty : JSValue) (v : JSValue) : Bool :=
  match sty with
  | .str t => jsTypeof v ≠ t
  | _ => true

/-- The `required` loop of `_validateWithSchema`.  The receiver has
already passed `typeof value === "object"`, so it is `null`, an array or
an object; `hasOwnProperty.call(null, …)` throws a runtime TypeError. -/
def checkRequired (sName : String) (v : JSValue) : List JSValue → Except JSError Unit
  | [] => .ok ()
  | f :: rest =>
      if v = .null then
        .error (.typeError "Cannot convert undefined or null to object")
      else
        let fk := jsToString f
        if ¬ jsHasOwn v fk ∨ jsGetProp v fk = .undefined then
          .error (.validation ("[flxdb] Schema \"" ++ sName ++ "\": \"" ++ fk ++ "\" is required."))
        else checkRequired sName v rest

/-- The `props` loop of `_validateWithSchema`; a property read on a `null`
receiver or `rules.type` on a `null` rule throws a runtime TypeError. -/
def checkProps (sName : String) (v : JSValue) :
    List (String × JSValue) → Except JSError Unit
  | [] => .ok ()
  | (field, rules) :: rest =>
      if v = .null then
        .error (.typeError "Cannot read properties of null")
      else
        let fv := jsGetProp v field
        if fv = .undefined then checkProps sName v rest
        else if rules = .null then
          .error (.typeError "Cannot read properties of null")
        else
          let rty := jsGetProp rules "type"
          if jsTruthy rty ∧ styMismatch rty fv then
            .error (.validation ("[flxdb] Schema \"" ++ sName ++ "\": \"" ++ field ++ "\" has the wrong type."))
          else checkProps sName v rest

/-- `FlxDBCore._validateWithSchema(schemaName, value)`. -/
def validateWithSchema (schemas : List (String × JSValue)) (sName : String)
    (v : JSValue) : Except JSError Unit :=
  match alistLookup schemas sName with
  | none => .error (.schemaNotFound sName)
  | some schema =>
      if ¬ jsTruthy schema then .error (.schemaNotFound sName)
      else
        let sty := jsGetProp schema "type"
        if jsTruthy sty ∧ styMismatch sty v then
          .error (.validation ("[flxdb] Schema \"" ++ sName ++ "\": wrong type."))
        else if sty = .str "object" then do
          (match jsGetProp schema "required" with
           | .arr fields => checkRequired sName v fields
           | _ => .ok ())
          (match jsGetProp schema "props" with
           | .obj pfs => checkProps sName v pfs
           | .arr pxs => checkProps sName v (entriesOf (.arr pxs))
           | _ => .ok ())
        else .ok ()

/-- Options bag of `FlxDBCore.set`; `none` models an absent /
`undefined` field (`const opts = options || {}` makes a missing bag the
empty object). -/
structure SetOpts where
  ttl : Option JSValue := none
  schema : Option JSValue := none
deriving DecidableEq, Repr

/-- The `ttl` extraction of `set`:
`typeof opts.ttl === "number" && Number.isFinite(opts.ttl) && opts.ttl > 0
  ? opts.ttl : null`. -/
def extractTtl (o : Option JSValue) : Option Int :=
  match o with
  | some (.num (.fin t)) => if 0 < t then some t else none
  | _ => none

/-- The `schema` extraction of `set`:
`typeof opts.schema === "string" && opts.schema.trim().length
  ? opts.schema.trim() : null`. -/
def extractSchemaName (o : Option JSValue) : Option String :=
  match o with
  | some (.str s) => if jsTrim s ≠ "" then some (jsTrim s) else none
  | _ => none

/-- `FlxDBCore.registerSchema(name, schema)`: the name must be a string
with a non-blank trim, the schema a truthy object (arrays qualify); the
definition is stored under the *raw* name. -/
def registerSchema (db : DB) (name : JSValue) (schema : JSValue) :
    DB × Except JSError Unit :=
  match name with
  | .str s =>
      if jsTrim s = "" then
        (db, .error (.typeError "[flxdb] Schema name must be a non-empty string"))
      else
        match schema with
        | .obj _ => ({ db with schemas := alistSet db.schemas s schema }, .ok ())
        | .arr _ => ({ db with schemas := alistSet db.schemas s schema }, .ok ())
        | _ => (db, .error (.typeError "[flxdb] Schema must be an object"))
  | _ => (db, .error (.typeError "[flxdb] Schema name must be a non-empty string"))

/-- `FlxDBCore.set(key, value, options)`.  `value = none` models a call
without a value argument (`value === undefined`), which together with an
object (or array) key selects the deep-merge mode.  In string mode the
key is coerced with `String(key)`; validation, when requested, runs
before any mutation, so a raised error leaves the state untouched. -/
def set (db : DB) (now : Int) (key : JSValue) (value : Option JSValue)
    (opts : SetOpts) : DB × Except JSError JSValue :=
  let objectMode :=
    match key, value with
    | .obj _, none => true
    | .arr _, none => true
    | _, _ => false
  if objectMode then
    ({ db with data := deepMergeRoot db.data key }, .ok key)
  else
    let k := jsToString key
    let ttl := extractTtl opts.ttl
    let sName := extractSchemaName opts.schema
    let v := value.getD .undefined
    let validated :=
      match sName with
      | some n => validateWithSchema db.schemas n v
      | none => .ok ()
    match validated with
    | .error e => (db, .error e)
    | .ok _ =>
        let data2 := writeAt db.data (splitKey k) v
        let meta2 :=
          if ttl.isSome ∨ sName.isSome then
            alistSet db.meta k ⟨ttl.map (fun t => now + t), sName⟩
          else alistDelete db.meta k
        ({ db with data := data2, meta := meta2 }, .ok v)

/-- `FlxDBCore.get(key, defaultValue = null)`.  The key is coerced with
`String(key)`; an expired entry is reclaimed first and yields the
default; a stored `undefined` also yields the default. -/
def get (db : DB) (now : Int) (key : JSValue) (dflt : JSValue := .null) :
    JSValue × DB :=
  let k := jsToString key
  match checkExpiredSingle db now k with
  | (true, db1) => (dflt, db1)
  | (false, db1) =>
      match walkPath (.obj db1.data) (splitKey k) with
      | none => (dflt, db1)
      | some v => (if v = .undefined then dflt else v, db1)

/-- `FlxDBCore.has(key)`: same walk as `get`, `true` whenever every part
resolves (a stored `undefined` still counts as present). -/
def has (db : DB) (now : Int) (key : JSValue) : Bool × DB :=
  let k := jsToString key
  match checkExpiredSingle db now k with
  | (true, db1) => (false, db1)
  | (false, db1) => ((walkPath (.obj db1.data) (splitKey k)).isSome, db1)

/-- `FlxDBCore.delete(key)`: resolve without creating; `false` when the
parent or terminal segment is absent, otherwise remove the value and the
meta entry.  Note: no expiry check here. -/
def delete (db : DB) (key : JSValue) : Bool × DB :=
  let k := jsToString key
  match deleteAt db.data (splitKey k) with
  | none => (false, db)
  | some d => (true, { db with data := d, meta := alistDelete db.meta k })

/-- `FlxDBCore.push(key, value)`: read the current value (default
`null`), coerce it to an array (`[]` for `undefined`/`null`, a singleton
for any other non-array), append, write back with `set` (no options), and
return the resulting array. -/
def push (db : DB) (now : Int) (key : JSValue) (value : JSValue) :
    List JSValue × DB :=
  let r := get db now key .null
  let arr :=
    match r.1 with
    | .arr xs => xs
    | .undefined => []
    | .null => []
    | x => [x]
  let arr2 := arr ++ [value]
  let r2 := set r.2 now key (some (.arr arr2)) {}
  (arr2, r2.1)

/-- `FlxDBCore.allArray()`: run the expiry sweep, then flatten. -/
def allArray (db : DB) (now : Int) : List (String × JSValue) × DB :=
  let db2 := cleanupExpired db now
  (flattenFields db2.data "", db2)

/-- `new FlxDBNamespace(core, name)`: the name is coerced with `String`
and trimmed, and must be non-empty. -/
def nsName (name : JSValue) : Except JSError String :=
  let s := jsTrim (jsToString name)
  if s = "" then .error (.typeError "[flxdb] Namespace name must be a non-empty string")
  else .ok s

/-- `FlxDBNamespace._k(key)`: the inner key must be a non-empty string;
the full key is `name ++ "." ++ key`. -/
def nsKeyOf (ns : String) (key : JSValue) : Except JSError String :=
  match key with
  | .str s =>
      if s = "" then .error (.typeError "[flxdb] Namespace key must be a non-empty string")
      else .ok (ns ++ "." ++ s)
  | _ => .error (.typeError "[flxdb] Namespace key must be a non-empty string")

/-- `FlxDBNamespace.set`: delegate to the core with the prefixed key. -/
def nsSet (db : DB) (now : Int) (ns : String) (key : JSValue)
    (value : Option JSValue) (opts : SetOpts) : DB × Except JSError JSValue :=
  match nsKeyOf ns key with
  | .error e => (db, .error e)
  | .ok k => set db now (.str k) value opts

/-- `FlxDBNamespace.get`: delegate to the core with the prefixed key. -/
def nsGet (db : DB) (now : Int) (ns : String) (key : JSValue)
    (dflt : JSValue := .null) : Except JSError (JSValue × DB) :=
  (nsKeyOf ns key).map (fun k => get db now (.str k) dflt)

/-! ### Association-list lemmas -/

theorem alistLookup_set_self {α : Type} (l : List (String × α)) (k : String) (v : α) :
    alistLookup (alistSet l k v) k = some v := by
  induction l with
  | nil => simp [alistSet, alistLookup]
  | cons e rest ih =>
      obtain ⟨k0, v0⟩ := e
      by_cases h : k0 = k <;> simp [alistSet, alistLookup, h, ih]

theorem alistLookup_set_other {α : Type} (l : List (String × α)) (k k2 : String) (v : α)
    (h : k2 ≠ k) : alistLookup (alistSet l k v) k2 = alistLookup l k2 := by
  induction l with
  | nil => simp [alistSet, alistLookup, Ne.symm h]
  | cons e rest ih =>
      obtain ⟨k0, v0⟩ := e
      by_cases h0 : k0 = k
      · subst h0
        simp [alistSet, alistLookup, Ne.symm h]
      · simp [alistSet, alistLookup, h0, ih]

theorem alistLookup_delete_self {α : Type} (l : List (String × α)) (k : String) :
    alistLookup (alistDelete l k) k = none := by
  induction l with
  | nil => simp [alistDelete, alistLookup]
  | cons e rest ih =>
      obtain ⟨k0, v0⟩ := e
      by_cases h : k0 = k <;> simp_all [alistDelete, alistLookup, List.filter]

theorem alistLookup_delete_other {α : Type} (l : List (String × α)) (k k2 : String)
    (h : k2 ≠ k) : alistLookup (alistDelete l k) k2 = alistLookup l k2 := by
  induction l with
  | nil => simp [alistDelete, alistLookup]
  | cons e rest ih =>
      obtain ⟨k0, v0⟩ := e
      by_cases h0 : k0 = k
      · subst h0
        have : k0 ≠ k2 := fun h2 => h h2.symm
        simp_all [alistDelete, alistLookup, List.filter]
      · by_cases h2 : k0 = k2 <;> simp_all [alistDelete, alistLookup, List.filter]

theorem alistDelete_of_lookup_none {α : Type} (l : List (String × α)) (k : String)
    (h : alistLookup l k = none) : alistDelete l k = l := by
  induction l with
  | nil => simp [alistDelete]
  | cons e rest ih =>
      obtain ⟨k0, v0⟩ := e
      by_cases h0 : k0 = k
      · simp [alistLookup, h0] at h
      · simp only [alistLookup, h0, if_false] at h
        have hrec := ih h
        simp only [alistDelete] at hrec ⊢
        rw [List.filter_cons]
        simp only [hrec]
        simp [h0]

theorem alistLookup_mem {α : Type} (l : List (String × α)) (k : String) (v : α)
    (h : alistLookup l k = some v) : (k, v) ∈ l := by
  induction l with
  | nil => simp [alistLookup] at h
  | cons e rest ih =>
      obtain ⟨k0, v0⟩ := e
      by_cases h0 : k0 = k
      · subst h0
        simp [alistLookup] at h
        simp [h]
      · simp only [alistLookup, h0, if_false] at h
        exact List.mem_cons_of_mem _ (ih h)

theorem mem_alistSet_self {α : Type} (l : List (String × α)) (k : String) (v : α) :
    (k, v) ∈ alistSet l k v :=
  alistLookup_mem _ _ _ (alistLookup_set_self l k v)

theorem objHas_set_self (fs : ObjFields) (k : String) (v : JSValue) :
    objHas (alistSet fs k v) k = true := by
  simp [objHas, alistLookup_set_self]

theorem objGetD_set_self (fs : ObjFields) (k : String) (v : JSValue) :
    objGetD (alistSet fs k v) k = v := by
  simp [objGetD, alistLookup_set_self]

theorem objHas_set_other (fs : ObjFields) (k k2 : String) (v : JSValue) (h : k2 ≠ k) :
    objHas (alistSet fs k v) k2 = objHas fs k2 := by
  simp [objHas, alistLookup_set_other _ _ _ _ h]

theorem objGetD_set_other (fs : ObjFields) (k k2 : String) (v : JSValue) (h : k2 ≠ k) :
    objGetD (alistSet fs k v) k2 = objGetD fs k2 := by
  simp [objGetD, alistLookup_set_other _ _ _ _ h]

theorem objHas_delete_self (fs : ObjFields) (k : String) :
    objHas (alistDelete fs k) k = false := by
  simp [objHas, alistLookup_delete_self]

theorem objHas_delete_other (fs : ObjFields) (k k2 : String) (h : k2 ≠ k) :
    objHas (alistDelete fs k) k2 = objHas fs k2 := by
  simp [objHas, alistLookup_delete_other _ _ _ h]

theorem objGetD_delete_other (fs : ObjFields) (k k2 : String) (h : k2 ≠ k) :
    objGetD (alistDelete fs k) k2 = objGetD fs k2 := by
  simp [objGetD, alistLookup_delete_other _ _ _ h]

/-! ### Write / walk lemmas -/

/-- A `set` write is visible to the `get`/`has` walk along the same parts. -/
theorem walkPath_writeAt (ps : List String) (fs : ObjFields) (v : JSValue)
    (hne : ps ≠ []) : walkPath (.obj (writeAt fs ps v)) ps = some v := by
  induction ps generalizing fs with
  | nil => exact absurd rfl hne
  | cons p rest ih =>
      cases rest with
      | nil =>
          simp [writeAt, walkPath, objHas_set_self, objGetD_set_self]
      | cons q rest2 =>
          simp only [writeAt, walkPath, objHas_set_self, objGetD_set_self, if_true]
          exact ih _ (by simp)

/-- A write at root key `p` does not disturb a walk starting at a
different root key. -/
theorem walkPath_set_other (fs : ObjFields) (p k : String) (w : JSValue)
    (ps : List String) (h : p ≠ k) :
    walkPath (.obj (alistSet fs k w)) (p :: ps) = walkPath (.obj fs) (p :: ps) := by
  simp [walkPath, objHas_set_other _ _ _ _ h, objGetD_set_other _ _ _ _ h]

/-! ### Deletion lemmas

`deleteAt fs ps = none` is exactly "the addressed slot is absent" (the
`delete` operation returns `false` there); these lemmas show a successful
deletion makes the slot absent and that absence is stable under further
deletions anywhere in the tree. -/

theorem deleteAt_self_none (ps : List String) (fs d : ObjFields)
    (h : deleteAt fs ps = some d) : deleteAt d ps = none := by
  induction ps generalizing fs d with
  | nil =>
      simp only [deleteAt] at h ⊢
      by_cases hh : objHas fs "undefined" = true
      · simp only [hh, if_true, Option.some.injEq] at h
        subst h
        simp [objHas_delete_self]
      · simp [hh] at h
  | cons p rest ih =>
      cases rest with
      | nil =>
          simp only [deleteAt] at h ⊢
          by_cases hh : objHas fs p = true
          · simp only [hh, if_true, Option.some.injEq] at h
            subst h
            simp [objHas_delete_self]
          · simp [hh] at h
      | cons q rest2 =>
          simp only [deleteAt] at h ⊢
          cases hl : alistLookup fs p with
          | none => simp [hl] at h
          | some w =>
              cases w with
              | obj cfs =>
                  simp only [hl] at h
                  cases hdel : deleteAt cfs (q :: rest2) with
                  | none => simp [hdel] at h
                  | some cfs2 =>
                      simp only [hdel, Option.map, Option.some.injEq] at h
                      subst h
                      simp only [alistLookup_set_self]
                      simp [ih _ _ hdel]
              | undefined => simp [hl] at h
              | null => simp [hl] at h
              | bool b => simp [hl] at h
              | num n => simp [hl] at h
              | str s => simp [hl] at h
              | arr xs => simp [hl] at h

theorem deleteAt_none_alistDelete (fs : ObjFields) (key : String) (ps : List String)
    (h : deleteAt fs ps = none) : deleteAt (alistDelete fs key) ps = none := by
  cases ps with
  | nil =>
      simp only [deleteAt] at h ⊢
      by_cases hh : objHas fs "undefined" = true
      · simp [hh] at h
      · by_cases hk : "undefined" = key
        · simp [hk, objHas_delete_self]
        · rw [objHas_delete_other _ _ _ hk]
          simp only [Bool.not_eq_true] at hh
          simp [hh]
  | cons p rest =>
      cases rest with
      | nil =>
          simp only [deleteAt] at h ⊢
          by_cases hh : objHas fs p = true
          · simp [hh] at h
          · by_cases hk : p = key
            · simp [hk, objHas_delete_self]
            · rw [objHas_delete_other _ _ _ hk]
              simp only [Bool.not_eq_true] at hh
              simp [hh]
      | cons q rest2 =>
          simp only [deleteAt] at h ⊢
          by_cases hk : p = key
          · subst hk
            simp [alistLookup_delete_self]
          · rw [alistLookup_delete_other _ _ _ hk]
            cases hl : alistLookup fs p with
            | none => simp [hl]
            | some w =>
                cases w with
                | obj cfs =>
                    simp only [hl] at h ⊢
                    cases hdel : deleteAt cfs (q :: rest2) with
                    | none => simp [hdel]
                    | some cfs2 => simp [hdel] at h
                | undefined => simp [hl]
                | null => simp [hl]
                | bool b => simp [hl]
                | num n => simp [hl]
                | str s => simp [hl]
                | arr xs => simp [hl]

theorem deleteAt_none_of_delete (qs : List String) (fs d : ObjFields) (ps : List String)
    (hnone : deleteAt fs ps = none) (hdel : deleteAt fs qs = some d) :
    deleteAt d ps = none := by
  induction qs generalizing fs d ps with
  | nil =>
      simp only [deleteAt] at hdel
      by_cases hh : objHas fs "undefined" = true
      · simp only [hh, if_true, Option.some.injEq] at hdel
        subst hdel
        exact deleteAt_none_alistDelete fs "undefined" ps hnone
      · simp [hh] at hdel
  | cons q rest ih =>
      cases rest with
      | nil =>
          simp only [deleteAt] at hdel
          by_cases hh : objHas fs q = true
          · simp only [hh, if_true, Option.some.injEq] at hdel
            subst hdel
            exact deleteAt_none_alistDelete fs q ps hnone
          · simp [hh] at hdel
      | cons r rest2 =>
          simp only [deleteAt] at hdel
          cases hl : alistLookup fs q with
          | none => simp [hl] at hdel
          | some w =>
              cases w with
              | obj g =>
                  simp only [hl] at hdel
                  cases hinner : deleteAt g (r :: rest2) with
                  | none => simp [hinner] at hdel
                  | some g2 =>
                      simp only [hinner, Option.map, Option.some.injEq] at hdel
                      subst hdel
                      cases ps with
                      | nil =>
                          simp only [deleteAt] at hnone ⊢
                          by_cases hpq : "undefined" = q
                          · exfalso
                            have : objHas fs "undefined" = true := by
                              rw [hpq]
                              simp [objHas, hl]
                            simp [this] at hnone
                          · rw [objHas_set_other _ _ _ _ hpq]
                            by_cases hh : objHas fs "undefined" = true
                            · simp [hh] at hnone
                            · simp only [Bool.not_eq_true] at hh
                              simp [hh]
                      | cons p ps2 =>
                          cases ps2 with
                          | nil =>
                              simp only [deleteAt] at hnone ⊢
                              by_cases hpq : p = q
                              · exfalso
                                have : objHas fs p = true := by
                                  rw [hpq]
                                  simp [objHas, hl]
                                simp [this] at hnone
                              · rw [objHas_set_other _ _ _ _ hpq]
                                by_cases hh : objHas fs p = true
                                · simp [hh] at hnone
                                · simp only [Bool.not_eq_true] at hh
                                  simp [hh]
                          | cons p2 ps3 =>
                              simp only [deleteAt] at hnone ⊢
                              by_cases hpq : p = q
                              · subst hpq
                                simp only [hl] at hnone
                                simp only [alistLookup_set_self]
                                cases hgn : deleteAt g (p2 :: ps3) with
                                | some gg => simp [hgn] at hnone
                                | none =>
                                    have := ih g g2 (p2 :: ps3) hgn hinner
                                    simp [this]
                              · rw [alistLookup_set_other _ _ _ _ hpq]
                                cases hlp : alistLookup fs p with
                                | none => simp [hlp]
                                | some w2 =>
                                    cases w2 with
                                    | obj cfs2 =>
                                        simp only [hlp] at hnone ⊢
                                        cases hdel2 : deleteAt cfs2 (p2 :: ps3) with
                                        | none => simp [hdel2]
                                        | some cc => simp [hdel2] at hnone
                                    | undefined => simp [hlp]
                                    | null => simp [hlp]
                                    | bool b => simp [hlp]
                                    | num n => simp [hlp]
                                    | str s => simp [hlp]
                                    | arr xs => simp [hlp]
              | undefined => simp [hl] at hdel
              | null => simp [hl] at hdel
              | bool b => simp [hl] at hdel
              | num n => simp [hl] at hdel
              | str s => simp [hl] at hdel
              | arr xs => simp [hl] at hdel

/-! ### Cleanup-sweep lemmas -/

/-- The sweep never resurrects an absent slot. -/
theorem cleanupInner_preserves_absent (L : List (String × MetaEntry)) (now : Int)
    (acc : DB) (ps : List String) (h : deleteAt acc.data ps = none) :
    deleteAt (cleanupInner L now acc).data ps = none := by
  induction L generalizing acc with
  | nil => exact h
  | cons e rest ih =>
      obtain ⟨k, m⟩ := e
      simp only [cleanupInner]
      apply ih
      cases hm : m.expiresAt with
      | none => simpa [hm] using h
      | some t =>
          simp only [hm]
          split
          · cases hd : deleteAt acc.data (splitKey k) with
            | none => simpa [hd] using h
            | some d =>
                simp only [hd]
                exact deleteAt_none_of_delete (splitKey k) acc.data d ps h hd
          · exact h

/-- An entry of the snapshot that is expired at sweep time ends with its
document slot absent. -/
theorem cleanupInner_reclaims (L : List (String × MetaEntry)) (now : Int)
    (acc : DB) (k : String) (m : MetaEntry) (t : Int) (hmem : (k, m) ∈ L)
    (he : m.expiresAt = some t) (h0 : t ≠ 0) (hle : t ≤ now) :
    deleteAt (cleanupInner L now acc).data (splitKey k) = none := by
  induction L generalizing acc with
  | nil => simp at hmem
  | cons e rest ih =>
      rcases List.mem_cons.mp hmem with heq | htail
      · subst heq
        simp only [cleanupInner, he, h0, hle, ne_eq, not_false_eq_true, and_self, if_true]
        apply cleanupInner_preserves_absent
        cases hd : deleteAt acc.data (splitKey k) with
        | none => simp [hd]
        | some d =>
            simp only [hd]
            exact deleteAt_self_none (splitKey k) acc.data d hd
      · obtain ⟨k0, m0⟩ := e
        simp only [cleanupInner]
        exact ih _ htail

/-! ### Splitting and joining key strings -/

/-- A segment is usable as a path component: non-empty and dot-free. -/
def goodSeg (s : String) : Prop := s ≠ "" ∧ '.' ∉ s.data

instance (s : String) : Decidable (goodSeg s) := by
  unfold goodSeg
  infer_instance

/-- Join non-empty path segments with dots (inverse of `splitKey` on
well-formed segments). -/
def joinSegs : List String → String
  | [] => ""
  | [n] => n
  | n :: m :: rest => n ++ "." ++ joinSegs (m :: rest)

/-- The key string of a `_flatten` entry under accumulated `pre`. -/
def joinPre (pre : String) (ns : List String) : String :=
  if pre = "" then joinSegs ns else pre ++ "." ++ joinSegs ns

theorem splitAux_no_dot (cs : List Char) : ∀ cur : List Char, '.' ∉ cur →
    ∀ s ∈ splitAux cs cur, '.' ∉ s.data := by
  induction cs with
  | nil =>
      intro cur hcur s hs
      simp only [splitAux, List.mem_singleton] at hs
      subst hs
      simpa using fun h => hcur (List.mem_reverse.mp h)
  | cons c rest ih =>
      intro cur hcur s hs
      by_cases hc : c = '.'
      · simp only [splitAux, hc, if_true, List.mem_cons] at hs
        rcases hs with hs | hs
        · subst hs
          simpa using fun h => hcur (List.mem_reverse.mp h)
        · exact ih [] (by simp) s hs
      · simp only [splitAux, hc, if_false] at hs
        refine ih (c :: cur) ?_ s hs
        intro h
        rcases List.mem_cons.mp h with h | h
        · exact hc h.symm
        · exact hcur h

/-- Every `splitKey` segment is non-empty and dot-free. -/
theorem splitKey_goodSeg (k : String) : ∀ s ∈ splitKey k, goodSeg s := by
  intro s hs
  constructor
  · have := List.of_mem_filter hs
    simpa using this
  · exact splitAux_no_dot k.data [] (by simp) s (List.mem_of_mem_filter hs)

theorem splitAux_all_dotfree (cs : List Char) (cur : List Char) (h : '.' ∉ cs) :
    splitAux cs cur = [String.mk (cur.reverse ++ cs)] := by
  induction cs generalizing cur with
  | nil => simp [splitAux]
  | cons c rest ih =>
      have hc : ¬ c = '.' := fun he => h (by simp [he])
      have hr : '.' ∉ rest := fun hm => h (List.mem_cons_of_mem _ hm)
      simp only [splitAux, hc, if_false]
      rw [ih (c :: cur) hr]
      simp

theorem splitAux_append_dot (cs : List Char) (l : List Char) (cur : List Char)
    (h : '.' ∉ cs) :
    splitAux (cs ++ '.' :: l) cur = String.mk (cur.reverse ++ cs) :: splitAux l [] := by
  induction cs generalizing cur with
  | nil => simp [splitAux]
  | cons c rest ih =>
      have hc : ¬ c = '.' := fun he => h (by simp [he])
      have hr : '.' ∉ rest := fun hm => h (List.mem_cons_of_mem _ hm)
      simp only [List.cons_append, splitAux, hc, if_false, List.append_eq]
      rw [ih (c :: cur) hr]
      simp

/-- Structure eta for strings: rebuilding from the character list is the
identity. -/
theorem mk_data_eta (s : String) : String.mk s.data = s := rfl

/-- `splitKey` undoes `joinSegs` on non-empty, dot-free segment lists. -/
theorem splitKey_joinSegs (ns : List String) (hne : ns ≠ [])
    (hgood : ∀ n ∈ ns, goodSeg n) : splitKey (joinSegs ns) = ns := by
  induction ns with
  | nil => exact absurd rfl hne
  | cons n rest ih =>
      obtain ⟨hn0, hnd⟩ := hgood n (List.mem_cons_self n rest)
      cases rest with
      | nil =>
          simp only [joinSegs, splitKey, jsSplitDot]
          rw [splitAux_all_dotfree n.data [] hnd]
          simp [hn0]
      | cons m rest2 =>
          have hjoin : (joinSegs (n :: m :: rest2)).data
              = n.data ++ '.' :: (joinSegs (m :: rest2)).data := by
            show (n ++ "." ++ joinSegs (m :: rest2)).data = _
            simp [String.data_append]
          have ihr := ih (by simp) (fun x hx => hgood x (List.mem_cons_of_mem _ hx))
          unfold splitKey jsSplitDot at ihr ⊢
          rw [hjoin, splitAux_append_dot n.data _ [] hnd]
          simp only [List.reverse_nil, List.nil_append, mk_data_eta]
          rw [List.filter_cons_of_pos (by simp [hn0])]
          rw [ihr]

/-! ### Well-formed documents

String-key writes only ever create object keys that are non-empty,
dot-free `splitKey` segments (or the literal `"undefined"`), and JS
objects have no duplicate keys.  `wfFields` captures that invariant; the
object-mode `set` can break it by merging a mapping whose keys contain
dots, which is exactly what the `allArray` counterexample exploits. -/

mutual

/-- Every object layer inside the value has well-formed fields. -/
def wfValue : JSValue → Bool
  | .obj fs => wfFields fs
  | _ => true
termination_by structural a => a

/-- Keys are non-empty, dot-free and duplicate-free at every level. -/
def wfFields : List (String × JSValue) → Bool
  | [] => true
  | (k, v) :: rest =>
      decide (goodSeg k) && wfValue v && !(objHas rest k) && wfFields rest
termination_by structural a => a

end

theorem wfFields_cons {k : String} {v : JSValue} {rest : List (String × JSValue)} :
    wfFields ((k, v) :: rest) = true ↔
    goodSeg k ∧ wfValue v = true ∧ objHas rest k = false ∧ wfFields rest = true := by
  simp [wfFields, Bool.and_eq_true, and_assoc]

theorem wfValue_of_lookup (fs : ObjFields) (k : String) (v : JSValue)
    (hwf : wfFields fs = true) (h : alistLookup fs k = some v) : wfValue v = true := by
  induction fs with
  | nil => simp [alistLookup] at h
  | cons e rest ih =>
      obtain ⟨k0, v0⟩ := e
      rw [wfFields_cons] at hwf
      by_cases h0 : k0 = k
      · simp only [alistLookup, h0, if_true, Option.some.injEq] at h
        subst h
        exact hwf.2.1
      · simp only [alistLookup, h0, if_false] at h
        exact ih hwf.2.2.2 h

theorem objHas_alistDelete_mono (l : ObjFields) (k x : String)
    (h : objHas l x = false) : objHas (alistDelete l k) x = false := by
  by_cases hx : x = k
  · rw [hx]
    exact objHas_delete_self l k
  · rw [objHas_delete_other _ _ _ hx]
    exact h

theorem wfFields_alistDelete (fs : ObjFields) (k : String)
    (hwf : wfFields fs = true) : wfFields (alistDelete fs k) = true := by
  induction fs with
  | nil => simp [alistDelete, wfFields]
  | cons e rest ih =>
      obtain ⟨k0, v0⟩ := e
      rw [wfFields_cons] at hwf
      by_cases h0 : k0 = k
      · have : alistDelete ((k0, v0) :: rest) k = alistDelete rest k := by
          simp [alistDelete, List.filter_cons, h0]
        rw [this]
        exact ih hwf.2.2.2
      · have : alistDelete ((k0, v0) :: rest) k = (k0, v0) :: alistDelete rest k := by
          simp [alistDelete, List.filter_cons, h0]
        rw [this, wfFields_cons]
        exact ⟨hwf.1, hwf.2.1, objHas_alistDelete_mono rest k k0 hwf.2.2.1,
          ih hwf.2.2.2⟩

theorem objHas_alistSet (l : ObjFields) (k x : String) (v : JSValue) :
    objHas (alistSet l k v) x = (decide (x = k) || objHas l x) := by
  by_cases hx : x = k
  · subst hx
    simp [objHas_set_self]
  · rw [objHas_set_other _ _ _ _ hx]
    simp [hx]

theorem wfFields_alistSet (fs : ObjFields) (k : String) (v : JSValue)
    (hwf : wfFields fs = true) (hk : goodSeg k) (hv : wfValue v = true) :
    wfFields (alistSet fs k v) = true := by
  induction fs with
  | nil => simp [alistSet, wfFields_cons, hk, hv, objHas, alistLookup, wfFields]
  | cons e rest ih =>
      obtain ⟨k0, v0⟩ := e
      rw [wfFields_cons] at hwf
      by_cases h0 : k0 = k
      · subst h0
        simp only [alistSet, if_true]
        rw [wfFields_cons]
        exact ⟨hk, hv, hwf.2.2.1, hwf.2.2.2⟩
      · simp only [alistSet, h0, if_false]
        rw [wfFields_cons]
        refine ⟨hwf.1, hwf.2.1, ?_, ih hwf.2.2.2⟩
        rw [objHas_alistSet]
        have hne : ¬ k0 = k := h0
        simp [hne, hwf.2.2.1]

theorem wfFields_writeAt (ps : List String) (fs : ObjFields) (v : JSValue)
    (hwf : wfFields fs = true) (hgood : ∀ s ∈ ps, goodSeg s)
    (hv : wfValue v = true) : wfFields (writeAt fs ps v) = true := by
  induction ps generalizing fs with
  | nil =>
      exact wfFields_alistSet fs "undefined" v hwf (by constructor <;> decide) hv
  | cons p rest ih =>
      have hp : goodSeg p := hgood p (List.mem_cons_self p rest)
      cases rest with
      | nil => exact wfFields_alistSet fs p v hwf hp hv
      | cons q rest2 =>
          simp only [writeAt]
          apply wfFields_alistSet fs p _ hwf hp
          show wfFields _ = true
          apply ih
          · cases hl : alistLookup fs p with
            | none => simp [objGetD, hl, wfFields]
            | some w =>
                cases w with
                | obj cfs =>
                    have := wfValue_of_lookup fs p _ hwf hl
                    simpa [objGetD, hl, wfValue] using this
                | undefined => simp [objGetD, hl, wfFields]
                | null => simp [objGetD, hl, wfFields]
                | bool b => simp [objGetD, hl, wfFields]
                | num n => simp [objGetD, hl, wfFields]
                | str s => simp [objGetD, hl, wfFields]
                | arr xs => simp [objGetD, hl, wfFields]
          · exact fun s hs => hgood s (List.mem_cons_of_mem _ hs)

theorem wfFields_deleteAt (qs : List String) (fs d : ObjFields)
    (hwf : wfFields fs = true) (hgood : ∀ s ∈ qs, goodSeg s)
    (hdel : deleteAt fs qs = some d) : wfFields d = true := by
  induction qs generalizing fs d with
  | nil =>
      simp only [deleteAt] at hdel
      by_cases hh : objHas fs "undefined" = true
      · simp only [hh, if_true, Option.some.injEq] at hdel
        subst hdel
        exact wfFields_alistDelete fs "undefined" hwf
      · simp [hh] at hdel
  | cons q rest ih =>
      have hq : goodSeg q := hgood q (List.mem_cons_self q rest)
      cases rest with
      | nil =>
          simp only [deleteAt] at hdel
          by_cases hh : objHas fs q = true
          · simp only [hh, if_true, Option.some.injEq] at hdel
            subst hdel
            exact wfFields_alistDelete fs q hwf
          · simp [hh] at hdel
      | cons r rest2 =>
          simp only [deleteAt] at hdel
          cases hl : alistLookup fs q with
          | none => simp [hl] at hdel
          | some w =>
              cases w with
              | obj g =>
                  simp only [hl] at hdel
                  cases hinner : deleteAt g (r :: rest2) with
                  | none => simp [hinner] at hdel
                  | some g2 =>
                      simp only [hinner, Option.map, Option.some.injEq] at hdel
                      subst hdel
                      have hg : wfFields g = true := by
                        have := wfValue_of_lookup fs q _ hwf hl
                        simpa [wfValue] using this
                      have hg2 := ih g g2 hg
                        (fun s hs => hgood s (List.mem_cons_of_mem _ hs)) hinner
                      exact wfFields_alistSet fs q _ hwf hq (by simpa [wfValue] using hg2)
              | undefined => simp [hl] at hdel
              | null => simp [hl] at hdel
              | bool b => simp [hl] at hdel
              | num n => simp [hl] at hdel
              | str s => simp [hl] at hdel
              | arr xs => simp [hl] at hdel

/-- The periodic sweep preserves well-formedness of the document. -/
theorem cleanupInner_wf (L : List (String × MetaEntry)) (now : Int) (acc : DB)
    (hwf : wfFields acc.data = true) :
    wfFields (cleanupInner L now acc).data = true := by
  induction L generalizing acc with
  | nil => exact hwf
  | cons e rest ih =>
      obtain ⟨k, m⟩ := e
      simp only [cleanupInner]
      apply ih
      cases hm : m.expiresAt with
      | none => simpa [hm] using hwf
      | some t =>
          simp only [hm]
          split
          · cases hd : deleteAt acc.data (splitKey k) with
            | none => simpa [hd] using hwf
            | some d =>
                simp only [hd]
                exact wfFields_deleteAt (splitKey k) acc.data d hwf
                  (splitKey_goodSeg k) hd
          · exact hwf

/-! ### Flattened entries name leaves -/

/-- Resolve a non-empty segment path to a *leaf* (a stored value that
`_flatten` does not descend into, i.e. anything but a plain object). -/
def leafAt : ObjFields → List String → Option JSValue
  | _, [] => none
  | fs, [n] =>
      match alistLookup fs n with
      | some (.obj _) => none
      | some v => some v
      | none => none
  | fs, n :: m :: rest =>
      match alistLookup fs n with
      | some (.obj g) => leafAt g (m :: rest)
      | _ => none

theorem string_ext {a b : String} (h : a.data = b.data) : a = b := by
  cases a
  cases b
  exact congrArg String.mk h

theorem string_append_assoc (a b c : String) : a ++ b ++ c = a ++ (b ++ c) := by
  apply string_ext
  simp [String.data_append, List.append_assoc]

theorem string_append_ne_left (a b : String) (h : a ≠ "") : a ++ b ≠ "" := by
  intro hc
  apply h
  apply string_ext
  have hd := congrArg String.data hc
  simp only [String.data_append] at hd
  have : a.data = [] ∧ b.data = [] := by
    constructor
    · cases hxa : a.data
      · rfl
      · rw [hxa] at hd; simp at hd
    · cases hxb : b.data
      · rfl
      · rw [hxb] at hd; simp at hd
  simpa using this.1

theorem alistLookup_cons_ne {α : Type} (k0 k : String) (v0 : α)
    (rest : List (String × α)) (h : ¬ k0 = k) :
    alistLookup ((k0, v0) :: rest) k = alistLookup rest k := by
  simp [alistLookup, h]

theorem joinPre_cons (pre k : String) (ns : List String) (hk : goodSeg k)
    (hne : ns ≠ []) : joinPre (joinPre pre [k]) ns = joinPre pre (k :: ns) := by
  cases ns with
  | nil => exact absurd rfl hne
  | cons m ms =>
      by_cases hp : pre = ""
      · subst hp
        simp [joinPre, joinSegs, hk.1]
      · have hpk : pre ++ ("." ++ k) ≠ "" := by
          rw [← string_append_assoc]
          exact string_append_ne_left _ _ (string_append_ne_left _ _ hp)
        simp [joinPre, hp, hpk, joinSegs, string_append_assoc]

theorem leafAt_head_has (fs : ObjFields) (n : String) (ms : List String)
    (v : JSValue) (h : leafAt fs (n :: ms) = some v) : objHas fs n = true := by
  cases ms with
  | nil =>
      simp only [leafAt] at h
      cases hl : alistLookup fs n with
      | none => simp [hl] at h
      | some w => simp [objHas, hl]
  | cons m ms2 =>
      simp only [leafAt] at h
      cases hl : alistLookup fs n with
      | none => simp [hl] at h
      | some w => simp [objHas, hl]

theorem leafAt_cons_other (k n : String) (v0 : JSValue) (rest : ObjFields)
    (ms : List String) (h : ¬ n = k) :
    leafAt ((k, v0) :: rest) (n :: ms) = leafAt rest (n :: ms) := by
  have hlk : ¬ k = n := fun he => h he.symm
  cases ms with
  | nil => simp only [leafAt, alistLookup_cons_ne k n v0 rest hlk]
  | cons m ms2 => simp only [leafAt, alistLookup_cons_ne k n v0 rest hlk]

/-- A leaf that exists can be deleted (`delete` would return `true`). -/
theorem leafAt_deleteAt_isSome (ns : List String) (fs : ObjFields) (v : JSValue)
    (h : leafAt fs ns = some v) : (deleteAt fs ns).isSome = true := by
  induction ns generalizing fs with
  | nil => simp [leafAt] at h
  | cons n ms ih =>
      cases ms with
      | nil =>
          simp only [leafAt] at h
          cases hl : alistLookup fs n with
          | none => simp [hl] at h
          | some w =>
              have : objHas fs n = true := by simp [objHas, hl]
              simp [deleteAt, this]
      | cons m ms2 =>
          simp only [leafAt] at h
          cases hl : alistLookup fs n with
          | none => simp [hl] at h
          | some w =>
              cases w with
              | obj g =>
                  simp only [hl] at h
                  have := ih g h
                  simp only [deleteAt, hl]
                  cases hd : deleteAt g (m :: ms2) with
                  | none => simp [hd] at this
                  | some g2 => simp [hd]
              | undefined => simp [hl] at h
              | null => simp [hl] at h
              | bool b => simp [hl] at h
              | num nn => simp [hl] at h
              | str s => simp [hl] at h
              | arr xs => simp [hl] at h

/-- Structure of a `_flatten` entry in a well-formed document: its key is
the dot-join of a non-empty list of good segments that resolves to the
entry's value as a leaf. -/
theorem flatten_mem_structure (fuel : Nat) :
    ∀ (fs : ObjFields), sizeOf fs ≤ fuel →
    wfFields fs = true → ∀ (pre K : String) (v : JSValue),
    (K, v) ∈ flattenFields fs pre →
    ∃ ns, ns ≠ [] ∧ (∀ n ∈ ns, goodSeg n) ∧ K = joinPre pre ns ∧
      leafAt fs ns = some v := by
  induction fuel with
  | zero =>
      intro fs hsz
      exfalso
      have : 0 < sizeOf fs := by cases fs <;> simp
      omega
  | succ n ih =>
      intro fs hsz hwf pre K v hmem
      cases fs with
      | nil => simp [flattenFields] at hmem
      | cons e rest =>
          obtain ⟨k, v0⟩ := e
          rw [wfFields_cons] at hwf
          simp only [flattenFields, List.mem_append] at hmem
          have hszr : sizeOf rest ≤ n := by
            have : sizeOf rest < sizeOf ((k, v0) :: rest) := by
              simp only [List.cons.sizeOf_spec]
              omega
            omega
          rcases hmem with hmem | hmem
          · cases v0 with
            | obj cfs =>
                have hszc : sizeOf cfs ≤ n := by
                  have : sizeOf cfs < sizeOf ((k, JSValue.obj cfs) :: rest) := by
                    simp only [List.cons.sizeOf_spec, Prod.mk.sizeOf_spec,
                      JSValue.obj.sizeOf_spec]
                    omega
                  omega
                have hwfc : wfFields cfs = true := by
                  have := hwf.2.1
                  simpa [wfValue] using this
                obtain ⟨ns0, hne0, hgood0, hK, hleaf⟩ :=
                  ih cfs hszc hwfc (joinPre pre [k]) K v hmem
                refine ⟨k :: ns0, by simp, ?_, ?_, ?_⟩
                · intro x hx
                  rcases List.mem_cons.mp hx with hx | hx
                  · subst hx
                    exact hwf.1
                  · exact hgood0 x hx
                · rw [hK, joinPre_cons pre k ns0 hwf.1 hne0]
                · cases ns0 with
                  | nil => exact absurd rfl hne0
                  | cons m ms =>
                      simp only [leafAt, alistLookup, if_pos rfl]
                      exact hleaf
            | undefined =>
                simp only [flattenEntry, List.mem_singleton, Prod.mk.injEq] at hmem
                obtain ⟨hK, hv⟩ := hmem
                subst hv
                exact ⟨[k], by simp, by simpa using hwf.1, hK,
                  by simp [leafAt, alistLookup]⟩
            | null =>
                simp only [flattenEntry, List.mem_singleton, Prod.mk.injEq] at hmem
                obtain ⟨hK, hv⟩ := hmem
                subst hv
                exact ⟨[k], by simp, by simpa using hwf.1, hK,
                  by simp [leafAt, alistLookup]⟩
            | bool b =>
                simp only [flattenEntry, List.mem_singleton, Prod.mk.injEq] at hmem
                obtain ⟨hK, hv⟩ := hmem
                subst hv
                exact ⟨[k], by simp, by simpa using hwf.1, hK,
                  by simp [leafAt, alistLookup]⟩
            | num nn =>
                simp only [flattenEntry, List.mem_singleton, Prod.mk.injEq] at hmem
                obtain ⟨hK, hv⟩ := hmem
                subst hv
                exact ⟨[k], by simp, by simpa using hwf.1, hK,
                  by simp [leafAt, alistLookup]⟩
            | str s =>
                simp only [flattenEntry, List.mem_singleton, Prod.mk.injEq] at hmem
                obtain ⟨hK, hv⟩ := hmem
                subst hv
                exact ⟨[k], by simp, by simpa using hwf.1, hK,
                  by simp [leafAt, alistLookup]⟩
            | arr xs =>
                simp only [flattenEntry, List.mem_singleton, Prod.mk.injEq] at hmem
                obtain ⟨hK, hv⟩ := hmem
                subst hv
                exact ⟨[k], by simp, by simpa using hwf.1, hK,
                  by simp [leafAt, alistLookup]⟩
          · obtain ⟨ns, hne, hgood, hK, hleaf⟩ :=
              ih rest hszr hwf.2.2.2 pre K v hmem
            refine ⟨ns, hne, hgood, hK, ?_⟩
            cases ns with
            | nil => exact absurd rfl hne
            | cons m ms =>
                have hm : objHas rest m = true := leafAt_head_has rest m ms v hleaf
                have hmk : ¬ m = k := by
                  intro he
                  rw [he] at hm
                  rw [hwf.2.2.1] at hm
                  exact Bool.false_ne_true hm
                rw [leafAt_cons_other k m v0 rest ms hmk]
                exact hleaf

/-! ### Expiry-check case lemmas -/

theorem checkExpired_no_meta (db : DB) (now : Int) (K : String)
    (h : alistLookup db.meta K = none) :
    checkExpiredSingle db now K = (false, db) := by
  unfold checkExpiredSingle
  rw [h]

theorem checkExpired_no_ttl (db : DB) (now : Int) (K : String) (m : MetaEntry)
    (hm : alistLookup db.meta K = some m) (he : m.expiresAt = none) :
    checkExpiredSingle db now K = (false, db) := by
  unfold checkExpiredSingle
  simp only [hm, he]

theorem checkExpired_future (db : DB) (now : Int) (K : String) (m : MetaEntry)
    (t : Int) (hm : alistLookup db.meta K = some m) (he : m.expiresAt = some t)
    (h : t = 0 ∨ now < t) : checkExpiredSingle db now K = (false, db) := by
  unfold checkExpiredSingle
  simp only [hm, he]
  rcases h with h0 | hlt
  · simp [h0]
  · by_cases h0 : t = 0
    · simp [h0]
    · simp [h0, hlt]

theorem checkExpired_fires (db : DB) (now : Int) (K : String) (m : MetaEntry)
    (t : Int) (hm : alistLookup db.meta K = some m) (he : m.expiresAt = some t)
    (h0 : t ≠ 0) (hle : t ≤ now) :
    checkExpiredSingle db now K =
      (true,
        { db with
          data :=
            match deleteAt db.data (splitKey K) with
            | some d => d
            | none => db.data,
          meta := alistDelete db.meta K }) := by
  unfold checkExpiredSingle
  simp only [hm, he]
  have hnlt : ¬ now < t := not_lt.mpr hle
  simp [h0, hnlt]

/-- A string-mode `set` without options writes the value at the split
path and clears any meta entry under the raw key. -/
theorem set_plain (db : DB) (now : Int) (K : String) (V : JSValue) :
    set db now (.str K) (some V) {} =
      ({ db with
          data := writeAt db.data (splitKey K) V,
          meta := alistDelete db.meta K }, .ok V) := by
  unfold set
  simp [jsToString_str, extractTtl, extractSchemaName]

/-- Reading back a key after a plain `set` yields the written value, at
any time (the meta entry was cleared, so nothing can expire). -/
theorem get_after_plain_set (db : DB) (now now2 : Int) (K : String) (V D : JSValue)
    (hseg : splitKey K ≠ []) (hv : V ≠ .undefined) :
    (get (set db now (.str K) (some V) {}).1 now2 (.str K) D).1 = V := by
  rw [set_plain]
  unfold get
  simp only [jsToString_str]
  rw [checkExpired_no_meta _ now2 K (by exact alistLookup_delete_self _ _)]
  simp [walkPath_writeAt _ _ _ hseg, hv]

/-! ### Claim theorems -/

/-- C9 (amended): for a key string with no non-empty segments, `get`
returns the entire document root (not the default) and `has` returns
`true` even on an empty document, with no error raised — *provided* the
expiry tracker holds no entry for that exact key string that has already
expired; an expired entry under the raw key (creatable by
`set(K, V, {ttl})` with such a `K`) makes that one access reclaim it and
return the default / `false` instead. -/
theorem flxdb_c9 (db : DB) (now : Int) (K : String) (D : JSValue)
    (hseg : splitKey K = [])
    (hnx : ∀ m t, alistLookup db.meta K = some m → m.expiresAt = some t →
      t = 0 ∨ now < t) :
    (get db now (.str K) D).1 = .obj db.data ∧
    (has db now (.str K)).1 = true := by
  have hexp : checkExpiredSingle db now K = (false, db) := by
    cases hm : alistLookup db.meta K with
    | none => exact checkExpired_no_meta db now K hm
    | some m =>
        cases he : m.expiresAt with
        | none => exact checkExpired_no_ttl db now K m hm he
        | some t => exact checkExpired_future db now K m t hm he (hnx m t hm he)
  constructor
  · show (get db now (.str K) D).1 = _
    unfold get
    simp [jsToString_str, hexp, hseg, walkPath]
  · show (has db now (.str K)).1 = _
    unfold has
    simp [jsToString_str, hexp, hseg, walkPath]

/-- Witness for C9's amended theorem at the key `"."` on a concrete
document with an empty tracker. -/
theorem flxdb_c9_witness :
    splitKey "." = [] ∧
    ((get ⟨[("x", .num (.fin 1))], [], []⟩ 5 (.str ".") (.str "D")).1
        = .obj [("x", .num (.fin 1))] ∧
      (has ⟨[("x", .num (.fin 1))], [], []⟩ 5 (.str ".")).1 = true) :=
  ⟨by decide,
    flxdb_c9 ⟨[("x", .num (.fin 1))], [], []⟩ 5 "." (.str "D") (by decide)
      (by intro m t hm he; simp [alistLookup] at hm)⟩

/-- A positive extracted ttl. -/
theorem extractTtl_pos (o : Option JSValue) (t : Int) (h : extractTtl o = some t) :
    0 < t := by
  cases o with
  | none => simp [extractTtl] at h
  | some w =>
      cases w with
      | num n =>
          cases n with
          | fin i =>
              simp only [extractTtl] at h
              by_cases hi : 0 < i
              · simp only [hi, if_true, Option.some.injEq] at h
                omega
              · simp [hi] at h
          | nan => simp [extractTtl] at h
          | inf => simp [extractTtl] at h
          | ninf => simp [extractTtl] at h
      | undefined => simp [extractTtl] at h
      | null => simp [extractTtl] at h
      | bool b => simp [extractTtl] at h
      | str s => simp [extractTtl] at h
      | arr xs => simp [extractTtl] at h
      | obj fs => simp [extractTtl] at h

/-- String-mode `set` in closed form: validate first (erroring leaves the
state untouched), then write the path and update or clear the meta
entry. -/
theorem set_str_mode (db : DB) (now : Int) (K : String) (V : JSValue)
    (opts : SetOpts) :
    set db now (.str K) (some V) opts =
      match (match extractSchemaName opts.schema with
             | some n => validateWithSchema db.schemas n V
             | none => Except.ok ()) with
      | .error e => (db, .error e)
      | .ok _ =>
          ({ db with
              data := writeAt db.data (splitKey K) V,
              meta :=
                if (extractTtl opts.ttl).isSome ∨ (extractSchemaName opts.schema).isSome then
                  alistSet db.meta K
                    ⟨(extractTtl opts.ttl).map (fun t => now + t),
                      extractSchemaName opts.schema⟩
                else alistDelete db.meta K }, .ok V) := rfl

/-- C1 (amended): for a key with at least one non-empty segment and a
JSON value `V`, a `set` that returns successfully makes `get(K)` return
exactly `V` (immediately, whatever options were passed); a `set` that
raises — which happens only when a schema option is given and validation
fails, normally with a ValidationError, though a `null` value checked
against an object schema with required fields surfaces as a runtime
TypeError — leaves the document unchanged, so `get(K, D)` afterwards
returns exactly what it returned before. -/
theorem flxdb_c1 (db : DB) (now : Int) (K : String) (V D : JSValue)
    (opts : SetOpts) (hseg : splitKey K ≠ []) (hv : V ≠ .undefined) :
    (∀ db2 rv, set db now (.str K) (some V) opts = (db2, .ok rv) →
      rv = V ∧ (get db2 now (.str K) D).1 = V) ∧
    (∀ db2 e, set db now (.str K) (some V) opts = (db2, .error e) →
      db2 = db ∧ get db2 now (.str K) D = get db now (.str K) D) := by
  constructor
  · intro db2 rv hset
    rw [set_str_mode] at hset
    cases hval : (match extractSchemaName opts.schema with
        | some n => validateWithSchema db.schemas n V
        | none => Except.ok ()) with
    | error e => rw [hval] at hset; simp at hset
    | ok u =>
        rw [hval] at hset
        simp only [Prod.mk.injEq, Except.ok.injEq] at hset
        obtain ⟨hdb2, hrv⟩ := hset
        refine ⟨hrv.symm, ?_⟩
        subst hdb2
        have hwalk : walkPath
            (.obj (writeAt db.data (splitKey K) V)) (splitKey K) = some V :=
          walkPath_writeAt _ _ _ hseg
        by_cases hts : (extractTtl opts.ttl).isSome = true
          ∨ (extractSchemaName opts.schema).isSome = true
        · simp only [hts, if_true]
          cases httl : extractTtl opts.ttl with
          | none =>
              have hce := checkExpired_no_ttl
                { db with
                    data := writeAt db.data (splitKey K) V,
                    meta := alistSet db.meta K
                      ⟨none, extractSchemaName opts.schema⟩ } now K
                ⟨none, extractSchemaName opts.schema⟩
                (alistLookup_set_self db.meta K _) rfl
              unfold get
              simp [jsToString_str, hce, hwalk, hv]
          | some t =>
              have ht : 0 < t := extractTtl_pos opts.ttl t httl
              have hce := checkExpired_future
                { db with
                    data := writeAt db.data (splitKey K) V,
                    meta := alistSet db.meta K
                      ⟨some (now + t), extractSchemaName opts.schema⟩ } now K
                ⟨some (now + t), extractSchemaName opts.schema⟩ (now + t)
                (alistLookup_set_self db.meta K _) rfl
                (Or.inr (by omega))
              unfold get
              simp [jsToString_str, hce, hwalk, hv, Option.map]
        · simp only [hts, if_false]
          have hce := checkExpired_no_meta
            { db with
                data := writeAt db.data (splitKey K) V,
                meta := alistDelete db.meta K } now K
            (alistLookup_delete_self db.meta K)
          unfold get
          simp [jsToString_str, hce, hwalk, hv]
  · intro db2 e hset
    rw [set_str_mode] at hset
    cases hval : (match extractSchemaName opts.schema with
        | some n => validateWithSchema db.schemas n V
        | none => Except.ok ()) with
    | error e2 =>
        rw [hval] at hset
        simp only [Prod.mk.injEq] at hset
        obtain ⟨hdb2, _⟩ := hset
        subst hdb2
        exact ⟨rfl, rfl⟩
    | ok u => rw [hval] at hset; simp at hset

/-- A store with the schema `S = {type: "object", required: ["id"]}`
registered. -/
def c1db : DB :=
  (registerSchema DB.empty (.str "S")
    (.obj [("type", .str "object"), ("required", .arr [.str "id"])])).1

/-- A value satisfying schema `S`. -/
def c1v : JSValue := .obj [("id", .num (.fin 1))]

/-- The options attaching schema `S` to a `set`. -/
def c1opts : SetOpts := ⟨none, some (.str "S")⟩

/-- Witness for C1's amended theorem: a passing schema-checked `set`
round-trips, and a failing one leaves the store untouched. -/
theorem flxdb_c1_witness :
    (get (set c1db 0 (.str "k") (some c1v) c1opts).1 0 (.str "k") .null).1 = c1v ∧
    (set c1db 0 (.str "k") (some .null) c1opts).1 = c1db := by
  constructor
  · have h := flxdb_c1 c1db 0 "k" c1v .null c1opts (by decide) (by decide)
    exact (h.1 (set c1db 0 (.str "k") (some c1v) c1opts).1 c1v (by decide)).2
  · have h := flxdb_c1 c1db 0 "k" .null .null c1opts (by decide) (by decide)
    exact (h.2 (set c1db 0 (.str "k") (some .null) c1opts).1
      (.typeError "Cannot convert undefined or null to object") (by decide)).1

/-- C1 counterexample: `set("k", null, {schema: "S"})` — `typeof null` is
`"object"`, so the type check passes and the `required` loop calls
`hasOwnProperty` on `null`, raising a runtime TypeError rather than the
ValidationError the claim promises (the document is still unchanged). -/
theorem flxdb_c1_cex :
    (set c1db 0 (.str "k") (some .null) c1opts).2
        = .error (.typeError "Cannot convert undefined or null to object") ∧
    (set c1db 0 (.str "k") (some .null) c1opts).1 = c1db := by decide

/-- C5: object-mode `set` deep-merges the incoming mapping into the root:
when both the existing and incoming value at a field are mappings they
are merged recursively; otherwise (arrays included) the incoming value
replaces the existing one wholesale; consequently `set({p:{q:1}})`
followed by `set({p:{r:2}})` makes `get("p")` equal `{q:1, r:2}`. -/
theorem flxdb_c5 (db : DB) (now : Int) (k : String) (v : JSValue)
    (cfs vfs : List (String × JSValue))
    (h1 : objGetD db.data k = .obj cfs) (h2 : v = .obj vfs) :
    ((set db now (.obj [(k, v)]) none {}).1).data
        = alistSet db.data k (.obj (mergeFields cfs vfs)) ∧
    (∀ w : JSValue, (∀ fs2 : List (String × JSValue), w ≠ .obj fs2) →
      ((set db now (.obj [(k, w)]) none {}).1).data = alistSet db.data k w) ∧
    (get ((set ((set DB.empty 0
          (.obj [("p", .obj [("q", .num (.fin 1))])]) none {}).1) 0
          (.obj [("p", .obj [("r", .num (.fin 2))])]) none {}).1) 0
        (.str "p") .null).1
      = .obj [("q", .num (.fin 1)), ("r", .num (.fin 2))] := by
  refine ⟨?_, ?_, by decide⟩
  · subst h2
    show mergeFields db.data [(k, .obj vfs)] = _
    simp only [mergeFields, mergeOne, h1]
  · intro w hw
    show mergeFields db.data [(k, w)] = alistSet db.data k w
    cases w with
    | obj fs2 => exact absurd rfl (hw fs2)
    | undefined => simp [mergeFields, mergeOne]
    | null => simp [mergeFields, mergeOne]
    | bool b => simp [mergeFields, mergeOne]
    | num n => simp [mergeFields, mergeOne]
    | str s => simp [mergeFields, mergeOne]
    | arr xs => simp [mergeFields, mergeOne]

/-- The store after `set({p: {q: 1}})`. -/
def c5db : DB :=
  (set DB.empty 0 (.obj [("p", .obj [("q", .num (.fin 1))])]) none {}).1

/-- Witness for C5 at the example state: merging `{p: {r: 2}}` into
`{p: {q: 1}}` recursively merges the two mappings at `p`. -/
theorem flxdb_c5_witness :
    ((set c5db 0 (.obj [("p", .obj [("r", .num (.fin 2))])]) none {}).1).data
        = alistSet c5db.data "p"
            (.obj (mergeFields [("q", .num (.fin 1))] [("r", .num (.fin 2))])) ∧
    ((set c5db 0 (.obj [("p", .str "flat")]) none {}).1).data
        = alistSet c5db.data "p" (.str "flat") ∧
    (get ((set ((set DB.empty 0
          (.obj [("p", .obj [("q", .num (.fin 1))])]) none {}).1) 0
          (.obj [("p", .obj [("r", .num (.fin 2))])]) none {}).1) 0
        (.str "p") .null).1
      = .obj [("q", .num (.fin 1)), ("r", .num (.fin 2))] := by
  have h := flxdb_c5 c5db 0 "p" (.obj [("r", .num (.fin 2))])
    [("q", .num (.fin 1))] [("r", .num (.fin 2))] (by decide) rfl
  exact ⟨h.1, h.2.1 (.str "flat") (by intro fs2 hcon; cases hcon), h.2.2⟩

/-- C3 (amended): `get` and `has` (and the operations built on them)
lazily reclaim an expired key — they return the default / `false` and
remove both the stored value and the tracker entry, as if the key had
never existed — but `set` and `delete` never consult the expiry tracker:
`delete(K)` on an expired-but-unreclaimed key whose value is still
present removes it and returns `true`, exactly as for a live key. -/
theorem flxdb_c3 (db : DB) (now : Int) (K : String) (D : JSValue)
    (m : MetaEntry) (t : Int) (hm : alistLookup db.meta K = some m)
    (he : m.expiresAt = some t) (h0 : t ≠ 0) (hle : t ≤ now) :
    (get db now (.str K) D).1 = D ∧
    alistLookup (get db now (.str K) D).2.meta K = none ∧
    deleteAt (get db now (.str K) D).2.data (splitKey K) = none ∧
    (has db now (.str K)).1 = false ∧
    ((deleteAt db.data (splitKey K)).isSome = true →
      (delete db (.str K)).1 = true) := by
  have hfires := checkExpired_fires db now K m t hm he h0 hle
  have hget : get db now (.str K) D =
      (D, (checkExpiredSingle db now K).2) := by
    unfold get
    simp [jsToString_str, hfires]
  refine ⟨by rw [hget], ?_, ?_, ?_, ?_⟩
  · rw [hget, hfires]
    exact alistLookup_delete_self _ _
  · rw [hget, hfires]
    show deleteAt (match deleteAt db.data (splitKey K) with
      | some d => d
      | none => db.data) (splitKey K) = none
    cases hd : deleteAt db.data (splitKey K) with
    | none => simp [hd]
    | some d =>
        simp only
        exact deleteAt_self_none (splitKey K) db.data d hd
  · unfold has
    simp [jsToString_str, hfires]
  · intro hpres
    unfold delete
    simp only [jsToString_str]
    cases hd : deleteAt db.data (splitKey K) with
    | none => rw [hd] at hpres; simp at hpres
    | some d => simp [hd]

/-- The store after `set("k", 1, {ttl: 5})` at time 0: by time 10 the key
is expired but not yet reclaimed. -/
def c3db : DB :=
  (set DB.empty 0 (.str "k") (some (.num (.fin 1))) ⟨some (.num (.fin 5)), none⟩).1

/-- Witness for C3's amended theorem on `c3db` at time 10. -/
theorem flxdb_c3_witness :
    (get c3db 10 (.str "k") .null).1 = .null ∧
    alistLookup (get c3db 10 (.str "k") .null).2.meta "k" = none ∧
    deleteAt (get c3db 10 (.str "k") .null).2.data (splitKey "k") = none ∧
    (has c3db 10 (.str "k")).1 = false ∧
    (delete c3db (.str "k")).1 = true := by
  have h := flxdb_c3 c3db 10 "k" .null ⟨some 5, none⟩ 5 (by decide) rfl
    (by decide) (by decide)
  exact ⟨h.1, h.2.1, h.2.2.1, h.2.2.2.1, h.2.2.2.2 (by decide)⟩

/-- C3 counterexample: on `c3db` at time 10 the key `"k"` is expired and
unreclaimed, yet `delete("k")` returns `true` — the claim says it returns
`false` like a never-set key. -/
theorem flxdb_c3_cex :
    alistLookup c3db.meta "k" = some ⟨some 5, none⟩ ∧ (5 : Int) ≤ 10 ∧
    (delete c3db (.str "k")).1 = true := by decide

/-- C10: a `ttl` option that is `0`, negative, `NaN`, `±Infinity`, or not
a number at all is silently treated as no TTL: with no schema name
alongside it, no expiry entry is created, any existing expiry entry for
the key is removed, and the key is stored permanently — `get`/`has`
succeed at every later time. -/
theorem flxdb_c10 (db : DB) (now : Int) (K : String) (V D : JSValue)
    (opts : SetOpts) (hseg : splitKey K ≠ []) (hv : V ≠ .undefined)
    (httl : opts.ttl = none ∨
      opts.ttl = some (.num .nan) ∨ opts.ttl = some (.num .inf) ∨
      opts.ttl = some (.num .ninf) ∨
      (∃ t : Int, t ≤ 0 ∧ opts.ttl = some (.num (.fin t))) ∨
      (∃ w : JSValue, opts.ttl = some w ∧ ∀ n : JSNum, w ≠ .num n))
    (hsch : opts.schema = none) :
    (set db now (.str K) (some V) opts).2 = .ok V ∧
    alistLookup (set db now (.str K) (some V) opts).1.meta K = none ∧
    ∀ now2 : Int,
      (get (set db now (.str K) (some V) opts).1 now2 (.str K) D).1 = V ∧
      (has (set db now (.str K) (some V) opts).1 now2 (.str K)).1 = true := by
  have httlnone : extractTtl opts.ttl = none := by
    rcases httl with h | h | h | h | ⟨t, ht, h⟩ | ⟨w, hw, hnum⟩
    · simp [h, extractTtl]
    · simp [h, extractTtl]
    · simp [h, extractTtl]
    · simp [h, extractTtl]
    · simp [h, extractTtl, not_lt.mpr ht]
    · rw [hw]
      cases w with
      | num n => exact absurd rfl (hnum n)
      | undefined => simp [extractTtl]
      | null => simp [extractTtl]
      | bool b => simp [extractTtl]
      | str s => simp [extractTtl]
      | arr xs => simp [extractTtl]
      | obj fs => simp [extractTtl]
  have hset : set db now (.str K) (some V) opts =
      ({ db with
          data := writeAt db.data (splitKey K) V,
          meta := alistDelete db.meta K }, .ok V) := by
    unfold set
    simp [jsToString_str, httlnone, hsch, extractSchemaName]
  have hmeta : alistLookup (set db now (.str K) (some V) opts).1.meta K = none := by
    rw [hset]
    exact alistLookup_delete_self _ _
  refine ⟨by rw [hset], hmeta, ?_⟩
  intro now2
  have hwalk : walkPath (.obj (set db now (.str K) (some V) opts).1.data)
      (splitKey K) = some V := by
    rw [hset]
    exact walkPath_writeAt _ _ _ hseg
  constructor
  · unfold get
    simp only [jsToString_str]
    rw [checkExpired_no_meta _ now2 K hmeta]
    simp [hwalk, hv]
  · unfold has
    simp only [jsToString_str]
    rw [checkExpired_no_meta _ now2 K hmeta]
    simp [hwalk]

/-- Witness for C10 with the literal `ttl: 0` on a fresh store. -/
theorem flxdb_c10_witness :
    (set DB.empty 0 (.str "k") (some (.num (.fin 7)))
        ⟨some (.num (.fin 0)), none⟩).2 = .ok (.num (.fin 7)) ∧
    alistLookup (set DB.empty 0 (.str "k") (some (.num (.fin 7)))
        ⟨some (.num (.fin 0)), none⟩).1.meta "k" = none ∧
    (get (set DB.empty 0 (.str "k") (some (.num (.fin 7)))
        ⟨some (.num (.fin 0)), none⟩).1 999 (.str "k") .null).1 = .num (.fin 7) ∧
    (has (set DB.empty 0 (.str "k") (some (.num (.fin 7)))
        ⟨some (.num (.fin 0)), none⟩).1 999 (.str "k")).1 = true := by
  have h := flxdb_c10 DB.empty 0 "k" (.num (.fin 7)) .null
    ⟨some (.num (.fin 0)), none⟩ (by decide) (by decide)
    (Or.inr (Or.inr (Or.inr (Or.inr (Or.inl ⟨0, le_refl 0, rfl⟩))))) rfl
  exact ⟨h.1, h.2.1, (h.2.2 999).1, (h.2.2 999).2⟩

/-- C4 (amended): the core operations never raise an InvalidKey error —
a key argument that is not a string (or is the empty string) is coerced
with `String(key)` and the operation proceeds on the coerced key; only
the namespace wrapper rejects non-string or empty keys.  In particular a
value-carrying `set` with no schema always succeeds. -/
theorem flxdb_c4 (db : DB) (now : Int) (key : JSValue) (v D : JSValue)
    (opts : SetOpts)
    (hk : (∀ s : String, key ≠ .str s) ∨ key = .str "") :
    get db now key D = get db now (.str (jsToString key)) D ∧
    has db now key = has db now (.str (jsToString key)) ∧
    delete db key = delete db (.str (jsToString key)) ∧
    set db now key (some v) opts = set db now (.str (jsToString key)) (some v) opts ∧
    (opts.schema = none → (set db now key (some v) opts).2 = .ok v) := by
  refine ⟨?_, ?_, ?_, ?_, ?_⟩
  · cases key <;> rfl
  · cases key <;> rfl
  · cases key <;> rfl
  · cases key <;> rfl
  · intro hs
    cases key <;> (unfold set; simp [hs, extractSchemaName])

/-- The store after `set(5, 7)` — the numeric key is coerced to `"5"`. -/
def c4db : DB :=
  (set DB.empty 0 (.num (.fin 5)) (some (.num (.fin 7))) {}).1

/-- Witness for C4's amended theorem at the numeric key `5`. -/
theorem flxdb_c4_witness :
    get DB.empty 0 (.num (.fin 5)) .null = get DB.empty 0 (.str "5") .null ∧
    has DB.empty 0 (.num (.fin 5)) = has DB.empty 0 (.str "5") ∧
    delete DB.empty (.num (.fin 5)) = delete DB.empty (.str "5") ∧
    set DB.empty 0 (.num (.fin 5)) (some (.num (.fin 7))) {}
      = set DB.empty 0 (.str "5") (some (.num (.fin 7))) {} ∧
    (set DB.empty 0 (.num (.fin 5)) (some (.num (.fin 7))) {}).2
      = .ok (.num (.fin 7)) := by
  have h := flxdb_c4 DB.empty 0 (.num (.fin 5)) (.num (.fin 7)) .null {}
    (Or.inl (by intro s hcon; cases hcon))
  exact ⟨h.1, h.2.1, h.2.2.1, h.2.2.2.1, h.2.2.2.2 rfl⟩

/-- C4 counterexample: `set(5, 7)` succeeds (no InvalidKey error), writes
the root key `"5"`, and the value is readable back — the core coerces
instead of failing. -/
theorem flxdb_c4_cex :
    (set DB.empty 0 (.num (.fin 5)) (some (.num (.fin 7))) {}).2
        = .ok (.num (.fin 7)) ∧
    c4db.data = [("5", .num (.fin 7))] ∧
    (get c4db 0 (.str "5") .null).1 = .num (.fin 7) := by decide

/-- C6 (amended): two key strings with the same sequence of non-empty
dot-separated segments address the same document location, and on any
state whose expiry tracker has no entry under either raw spelling the
operations behave identically on the two forms: `get`, `has`, `delete`
and option-free `set` return the same results and produce the same
states.  (TTL metadata is keyed by the raw key string, so the two forms
can diverge when a tracker entry exists under one spelling — see the
counterexample.) -/
theorem flxdb_c6 (db : DB) (now : Int) (K1 K2 : String) (D v : JSValue)
    (hsplit : splitKey K1 = splitKey K2)
    (hm1 : alistLookup db.meta K1 = none)
    (hm2 : alistLookup db.meta K2 = none) :
    get db now (.str K1) D = get db now (.str K2) D ∧
    has db now (.str K1) = has db now (.str K2) ∧
    delete db (.str K1) = delete db (.str K2) ∧
    set db now (.str K1) (some v) {} = set db now (.str K2) (some v) {} := by
  have e1 := checkExpired_no_meta db now K1 hm1
  have e2 := checkExpired_no_meta db now K2 hm2
  have d1 : alistDelete db.meta K1 = db.meta := alistDelete_of_lookup_none _ _ hm1
  have d2 : alistDelete db.meta K2 = db.meta := alistDelete_of_lookup_none _ _ hm2
  refine ⟨?_, ?_, ?_, ?_⟩
  · unfold get
    simp [jsToString_str, e1, e2, hsplit]
  · unfold has
    simp [jsToString_str, e1, e2, hsplit]
  · unfold delete
    simp only [jsToString_str, hsplit]
    cases hd : deleteAt db.data (splitKey K2) with
    | none => simp [hd]
    | some d => simp [hd, d1, d2]
  · rw [set_plain, set_plain, hsplit, d1, d2]

/-- The store after `set("a.b", 1, {ttl: 5})` at time 0. -/
def c6db : DB :=
  (set DB.empty 0 (.str "a.b") (some (.num (.fin 1))) ⟨some (.num (.fin 5)), none⟩).1

/-- Witness for C6's amended theorem on the spellings `"a..b"` / `"a.b"`
over a tracker-free state. -/
theorem flxdb_c6_witness :
    get c4db 0 (.str "a..b") .null = get c4db 0 (.str "a.b") .null ∧
    has c4db 0 (.str "a..b") = has c4db 0 (.str "a.b") ∧
    delete c4db (.str "a..b") = delete c4db (.str "a.b") ∧
    set c4db 0 (.str "a..b") (some (.num (.fin 2))) {}
      = set c4db 0 (.str "a.b") (some (.num (.fin 2))) {} :=
  flxdb_c6 c4db 0 "a..b" "a.b" .null (.num (.fin 2)) (by decide) rfl rfl

/-- C6 counterexample: `"a.b"` and `"a..b"` split to the same segments,
yet on `c6db` at time 10 `get("a.b")` returns the default (the raw-keyed
tracker entry fires) while `get("a..b")` still returns the stored value —
the two forms do not behave identically on every state. -/
theorem flxdb_c6_cex :
    splitKey "a.b" = splitKey "a..b" ∧
    (get c6db 10 (.str "a.b") .null).1 = .null ∧
    (get c6db 10 (.str "a..b") .null).1 = .num (.fin 1) := by decide

/-- C7: `push(K, V)` appends to a stored sequence, starts a singleton
sequence when the key is absent or null, and coerces any other stored
value `x` into `[x, V]` — never raising a type error; the resulting
sequence is written back at `K` (readable at any later time, since the
plain write clears TTL metadata) and returned. -/
theorem flxdb_c7 (db : DB) (now : Int) (K : String) (V cur : JSValue)
    (L : List JSValue) (hseg : splitKey K ≠ [])
    (hcur : (get db now (.str K) .null).1 = cur)
    (hL : L = match cur with
      | .arr xs => xs ++ [V]
      | .undefined => [V]
      | .null => [V]
      | x => [x, V]) :
    (push db now (.str K) V).1 = L ∧
    ∀ now2 D, (get (push db now (.str K) V).2 now2 (.str K) D).1 = .arr L := by
  have h1 : (push db now (.str K) V).1 = L := by
    show (match (get db now (.str K) .null).1 with
      | .arr xs => xs
      | .undefined => ([] : List JSValue)
      | .null => []
      | x => [x]) ++ [V] = L
    rw [hcur, hL]
    cases cur <;> simp
  have h2 : (push db now (.str K) V).2 =
      (set (get db now (.str K) .null).2 now (.str K)
        (some (.arr (push db now (.str K) V).1)) {}).1 := rfl
  refine ⟨h1, ?_⟩
  intro now2 D
  rw [h2, h1]
  exact get_after_plain_set _ now now2 K (.arr L) D hseg (by simp)

/-- The store after `set("n", 5)`. -/
def c7db : DB :=
  (set DB.empty 0 (.str "n") (some (.num (.fin 5))) {}).1

/-- Witness for C7: the spec example `set("n",5); push("n",6)` gives
`get("n") == [5, 6]`. -/
theorem flxdb_c7_witness :
    (push c7db 0 (.str "n") (.num (.fin 6))).1
        = [.num (.fin 5), .num (.fin 6)] ∧
    (get (push c7db 0 (.str "n") (.num (.fin 6))).2 0 (.str "n") .null).1
        = .arr [.num (.fin 5), .num (.fin 6)] := by
  have h := flxdb_c7 c7db 0 "n" (.num (.fin 6)) (.num (.fin 5))
    [.num (.fin 5), .num (.fin 6)] (by decide) (by decide) rfl
  exact ⟨h.1, h.2 0 .null⟩

/-- The value a `get` returns is unchanged by a state update that leaves
the key's walk and the key's meta entry alone. -/
theorem get_value_invariant (db db2 : DB) (now : Int) (s delKey : String)
    (D : JSValue) (hmeta2 : db2.meta = alistDelete db.meta delKey)
    (hsne : s ≠ delKey)
    (hwalk : walkPath (.obj db2.data) (splitKey s)
      = walkPath (.obj db.data) (splitKey s)) :
    (get db2 now (.str s) D).1 = (get db now (.str s) D).1 := by
  have hlk : alistLookup db2.meta s = alistLookup db.meta s := by
    rw [hmeta2]
    exact alistLookup_delete_other _ _ _ hsne
  cases hms : alistLookup db.meta s with
  | none =>
      have c1 := checkExpired_no_meta db2 now s (hlk.trans hms)
      have c2 := checkExpired_no_meta db now s hms
      unfold get
      simp only [jsToString_str, c1, c2, hwalk]
      cases walkPath (.obj db.data) (splitKey s) <;> simp
  | some m =>
      cases he : m.expiresAt with
      | none =>
          have c1 := checkExpired_no_ttl db2 now s m (hlk.trans hms) he
          have c2 := checkExpired_no_ttl db now s m hms he
          unfold get
          simp only [jsToString_str, c1, c2, hwalk]
          cases walkPath (.obj db.data) (splitKey s) <;> simp
      | some t =>
          by_cases hfire : t ≠ 0 ∧ t ≤ now
          · have c1 := checkExpired_fires db2 now s m t (hlk.trans hms) he
              hfire.1 hfire.2
            have c2 := checkExpired_fires db now s m t hms he hfire.1 hfire.2
            unfold get
            simp [jsToString_str, c1, c2]
          · have hok : t = 0 ∨ now < t := by
              by_cases h0 : t = 0
              · exact Or.inl h0
              · right
                by_contra hcon
                exact hfire ⟨h0, le_of_not_lt hcon⟩
            have c1 := checkExpired_future db2 now s m t (hlk.trans hms) he hok
            have c2 := checkExpired_future db now s m t hms he hok
            unfold get
            simp only [jsToString_str, c1, c2, hwalk]
            cases walkPath (.obj db.data) (splitKey s) <;> simp

/-- C8 (amended): `namespace("a").set("x", v)` writes exactly the root
key `"a.x"` (readable there) and leaves every key outside the walked
slot untouched: for any other namespace name `b` whose first non-empty
dot-segment differs from `"a"`, `namespace(b).get("x", D)` returns the
same value as before the write.  (A namespace name such as `"a.x"`, whose
first segment is `"a"`, can be affected — see the counterexample.) -/
theorem flxdb_c8 (db : DB) (now : Int) (b p : String) (rest : List String)
    (v D : JSValue) (hsplit : splitKey (b ++ "." ++ "x") = p :: rest)
    (hp : p ≠ "a") (hv : v ≠ .undefined) :
    ((nsGet (nsSet db now "a" (.str "x") (some v) {}).1 now b (.str "x") D).map
        Prod.fst
      = (nsGet db now b (.str "x") D).map Prod.fst) ∧
    (get (nsSet db now "a" (.str "x") (some v) {}).1 now (.str "a.x") D).1 = v := by
  have hw : nsSet db now "a" (.str "x") (some v) {}
      = set db now (.str "a.x") (some v) {} := rfl
  have hsk : splitKey "a.x" = ["a", "x"] := by decide
  have hset : (nsSet db now "a" (.str "x") (some v) {}).1 =
      { db with
          data := writeAt db.data (splitKey "a.x") v,
          meta := alistDelete db.meta "a.x" } := by
    rw [hw, set_plain]
  constructor
  · -- isolation for the other namespace
    have hbk : nsKeyOf b (.str "x") = .ok (b ++ "." ++ "x") := rfl
    unfold nsGet
    rw [hbk]
    simp only [Except.map]
    have hsne : b ++ "." ++ "x" ≠ "a.x" := by
      intro hcon
      rw [hcon, hsk] at hsplit
      simp only [List.cons.injEq] at hsplit
      exact hp hsplit.1.symm
    have hwalkeq : walkPath (.obj (writeAt db.data (splitKey "a.x") v))
        (splitKey (b ++ "." ++ "x"))
        = walkPath (.obj db.data) (splitKey (b ++ "." ++ "x")) := by
      rw [hsk, hsplit]
      simp only [writeAt]
      exact walkPath_set_other db.data p "a" _ rest hp
    rw [hset]
    rw [get_value_invariant db _ now (b ++ "." ++ "x") "a.x" D rfl hsne hwalkeq]
  · rw [hset]
    have hce := checkExpired_no_meta
      { db with
          data := writeAt db.data (splitKey "a.x") v,
          meta := alistDelete db.meta "a.x" } now "a.x"
      (alistLookup_delete_self db.meta "a.x")
    have hwalk : walkPath (.obj (writeAt db.data (splitKey "a.x") v))
        (splitKey "a.x") = some v := by
      apply walkPath_writeAt
      rw [hsk]
      simp
    unfold get
    simp [jsToString_str, hce, hwalk, hv]

/-- Witness for C8's amended theorem with the disjoint namespace `"b"`
over the empty store. -/
theorem flxdb_c8_witness :
    ((nsGet (nsSet DB.empty 0 "a" (.str "x") (some (.num (.fin 5))) {}).1 0 "b"
        (.str "x") .null).map Prod.fst
      = (nsGet DB.empty 0 "b" (.str "x") .null).map Prod.fst) ∧
    (get (nsSet DB.empty 0 "a" (.str "x") (some (.num (.fin 5))) {}).1 0
        (.str "a.x") .null).1 = .num (.fin 5) :=
  flxdb_c8 DB.empty 0 "b" "b" ["x"] (.num (.fin 5)) .null (by decide) (by decide)
    (by decide)

/-- A store holding `a.x.x = 7`, then hit by `namespace("a").set("x", 5)`. -/
def c8db : DB :=
  (set DB.empty 0 (.str "a.x.x") (some (.num (.fin 7))) {}).1

/-- C8 counterexample: `"a.x"` is a namespace name other than `"a"`, yet
`namespace("a").set("x", 5)` changes `namespace("a.x").get("x")` from `7`
to the default — the claim's "any other namespace name" is too strong. -/
theorem flxdb_c8_cex :
    ((nsGet c8db 0 "a.x" (.str "x") .null).map Prod.fst
        = .ok (.num (.fin 7))) ∧
    ((nsGet (nsSet c8db 0 "a" (.str "x") (some (.num (.fin 5))) {}).1 0 "a.x"
        (.str "x") .null).map Prod.fst
      = .ok .null) := by decide

/-- The walk always succeeds right after the corresponding write (also
for an empty part list, where the walk returns the root itself). -/
theorem walkPath_writeAt_isSome (ps : List String) (fs : ObjFields) (v : JSValue) :
    (walkPath (.obj (writeAt fs ps v)) ps).isSome = true := by
  cases ps with
  | nil => simp [walkPath]
  | cons p rest =>
      rw [walkPath_writeAt (p :: rest) fs v (by simp)]
      rfl

/-- C2 (amended): after `set(K, V, {ttl: T})` with a finite positive `T`
at a non-negative clock time, `has(K)` is true immediately; at any time
at least `T` later, `has(K)` is false and `get(K, D)` returns `D`; and —
provided the document's mapping keys and those inside `V` are non-empty,
dot-free and duplicate-free (the invariant maintained by string-key
writes; a dotted mapping key smuggled in by object-mode `set` can
flatten to a colliding key, see the counterexample) — no entry whose key
is `K` appears in `allArray()`. -/
theorem flxdb_c2 (db : DB) (now0 now1 T : Int) (K : String) (V D : JSValue)
    (hwf : wfFields db.data = true) (hwv : wfValue V = true)
    (hn0 : 0 ≤ now0) (hT : 0 < T) (h1 : now0 + T ≤ now1) :
    (has (set db now0 (.str K) (some V)
        ⟨some (.num (.fin T)), none⟩).1 now0 (.str K)).1 = true ∧
    (has (set db now0 (.str K) (some V)
        ⟨some (.num (.fin T)), none⟩).1 now1 (.str K)).1 = false ∧
    (get (set db now0 (.str K) (some V)
        ⟨some (.num (.fin T)), none⟩).1 now1 (.str K) D).1 = D ∧
    ∀ w, (K, w) ∉ (allArray (set db now0 (.str K) (some V)
        ⟨some (.num (.fin T)), none⟩).1 now1).1 := by
  have hset : set db now0 (.str K) (some V) ⟨some (.num (.fin T)), none⟩ =
      ({ db with
          data := writeAt db.data (splitKey K) V,
          meta := alistSet db.meta K ⟨some (now0 + T), none⟩ }, .ok V) := by
    rw [set_str_mode]
    simp [extractSchemaName, extractTtl, hT]
  have hlk : alistLookup
      (alistSet db.meta K (⟨some (now0 + T), none⟩ : MetaEntry)) K
      = some ⟨some (now0 + T), none⟩ := alistLookup_set_self _ _ _
  have ht0 : now0 + T ≠ 0 := by omega
  refine ⟨?_, ?_, ?_, ?_⟩
  · -- has immediately after the write
    rw [hset]
    have hce := checkExpired_future
      { db with
          data := writeAt db.data (splitKey K) V,
          meta := alistSet db.meta K ⟨some (now0 + T), none⟩ } now0 K
      ⟨some (now0 + T), none⟩ (now0 + T) hlk rfl (Or.inr (by omega))
    unfold has
    simp [jsToString_str, hce, walkPath_writeAt_isSome]
  · -- has after expiry
    rw [hset]
    have hce := checkExpired_fires
      { db with
          data := writeAt db.data (splitKey K) V,
          meta := alistSet db.meta K ⟨some (now0 + T), none⟩ } now1 K
      ⟨some (now0 + T), none⟩ (now0 + T) hlk rfl ht0 h1
    unfold has
    simp [jsToString_str, hce]
  · -- get after expiry
    rw [hset]
    have hce := checkExpired_fires
      { db with
          data := writeAt db.data (splitKey K) V,
          meta := alistSet db.meta K ⟨some (now0 + T), none⟩ } now1 K
      ⟨some (now0 + T), none⟩ (now0 + T) hlk rfl ht0 h1
    unfold get
    simp [jsToString_str, hce]
  · -- no flattened entry keyed K after the sweep
    intro w hmem
    rw [hset] at hmem
    simp only [allArray, cleanupExpired] at hmem
    have hwf2 : wfFields (writeAt db.data (splitKey K) V) = true :=
      wfFields_writeAt (splitKey K) db.data V hwf (splitKey_goodSeg K) hwv
    have hwfc : wfFields (cleanupInner
        (alistSet db.meta K ⟨some (now0 + T), none⟩) now1
        { db with
            data := writeAt db.data (splitKey K) V,
            meta := alistSet db.meta K ⟨some (now0 + T), none⟩ }).data = true :=
      cleanupInner_wf _ now1 _ hwf2
    have habs : deleteAt (cleanupInner
        (alistSet db.meta K ⟨some (now0 + T), none⟩) now1
        { db with
            data := writeAt db.data (splitKey K) V,
            meta := alistSet db.meta K ⟨some (now0 + T), none⟩ }).data
        (splitKey K) = none :=
      cleanupInner_reclaims _ now1 _ K ⟨some (now0 + T), none⟩ (now0 + T)
        (mem_alistSet_self db.meta K _) rfl ht0 h1
    obtain ⟨ns, hne, hgood, hK, hleaf⟩ :=
      flatten_mem_structure (sizeOf (cleanupInner
        (alistSet db.meta K ⟨some (now0 + T), none⟩) now1
        { db with
            data := writeAt db.data (splitKey K) V,
            meta := alistSet db.meta K ⟨some (now0 + T), none⟩ }).data)
        _ le_rfl hwfc "" K w hmem
    have hKj : K = joinSegs ns := by simpa [joinPre] using hK
    have hsk : splitKey K = ns := by
      rw [hKj]
      exact splitKey_joinSegs ns hne hgood
    have hsome := leafAt_deleteAt_isSome ns _ w hleaf
    rw [← hsk, habs] at hsome
    simp at hsome

/-- Witness for C2's amended theorem: `set("k", 1, {ttl: 5})` at time 0
on the empty store; at time 5 the key reads as absent and `allArray` has
no entry for it. -/
theorem flxdb_c2_witness :
    (has (set DB.empty 0 (.str "k") (some (.num (.fin 1)))
        ⟨some (.num (.fin 5)), none⟩).1 0 (.str "k")).1 = true ∧
    (has (set DB.empty 0 (.str "k") (some (.num (.fin 1)))
        ⟨some (.num (.fin 5)), none⟩).1 5 (.str "k")).1 = false ∧
    (get (set DB.empty 0 (.str "k") (some (.num (.fin 1)))
        ⟨some (.num (.fin 5)), none⟩).1 5 (.str "k") (.str "D")).1 = .str "D" ∧
    ("k", JSValue.num (.fin 1)) ∉ (allArray (set DB.empty 0 (.str "k")
        (some (.num (.fin 1))) ⟨some (.num (.fin 5)), none⟩).1 5).1 := by
  have h := flxdb_c2 DB.empty 0 5 5 "k" (.num (.fin 1)) (.str "D")
    (by decide) (by decide) (by decide) (by decide) (by decide)
  exact ⟨h.1, h.2.1, h.2.2.1, h.2.2.2 (.num (.fin 1))⟩

/-- A store where object-mode `set` introduced the literal dotted root
key `"a.b"`, then `set("a.b", 2, {ttl: 5})` wrote the nested path. -/
def c2db : DB :=
  (set ((set DB.empty 0 (.obj [("a.b", .num (.fin 1))]) none {}).1) 0
    (.str "a.b") (some (.num (.fin 2))) ⟨some (.num (.fin 5)), none⟩).1

/-- C2 counterexample: on `c2db` at time 10 the TTL on `"a.b"` has long
expired, yet `allArray()` still contains an entry whose key is exactly
`"a.b"` — the literal dotted mapping key flattens to the same key string
as the expired path. -/
theorem flxdb_c2_cex :
    alistLookup c2db.meta "a.b" = some ⟨some 5, none⟩ ∧ (5 : Int) ≤ 10 ∧
    ("a.b", JSValue.num (.fin 1)) ∈ (allArray c2db 10).1 := by decide

/-- The document state of the C9 counterexample: a TTL write under the
segmentless key `""` (which stores the value at the root property
`"undefined"` but registers the tracker entry under `""`). -/
def c9db : DB :=
  (set DB.empty 0 (.str "") (some (.num (.fin 1))) ⟨some (.num (.fin 5)), none⟩).1

/-- C9 counterexample: after `set("", 1, {ttl: 5})` at time 0, reading the
segmentless key `""` at time 10 returns the default (and `has` returns
`false`), not the document root — the claim fails on this reachable
state. -/
theorem flxdb_c9_cex :
    (get c9db 10 (.str "") (.str "D")).1 = .str "D" ∧
    (has c9db 10 (.str "")).1 = false ∧
    c9db.data = [("undefined", .num (.fin 1))] := by decide

end Flxdb
